import Mathlib

/-!
Verification development for the medconnect specialist-search engine
(`src/server/app.py`).  Strings are modelled as `List Char`; Python floats
are modelled as exact rationals (`ℚ`); Python dicts as insertion-ordered
association lists.  Lowercasing and the regex character classes `\w`, `\s`
are modelled over ASCII, matching the data the engine processes.
-/

/-- Strings from the Python source, modelled as lists of characters. -/
abbrev Str := List Char

/-- ASCII lowercasing of a single character; models Python `str.lower`
on the ASCII range. -/
def lowerChar (c : Char) : Char :=
  if 65 ≤ c.toNat ∧ c.toNat ≤ 90 then Char.ofNat (c.toNat + 32) else c

/-- A character matched by the regex class `\w` (modelled over ASCII). -/
def isWordChar (c : Char) : Bool :=
  c.isAlphanum || c = '_'

/-- Python `str.strip` on the left: drop leading whitespace. -/
def lstrip (s : Str) : Str := s.dropWhile Char.isWhitespace

/-- Drop trailing whitespace. -/
def rstrip : Str → Str
  | [] => []
  | c :: cs =>
    let r := rstrip cs
    if r = [] then (if c.isWhitespace then [] else [c]) else c :: r

/-- Python `str.strip`: drop leading and trailing whitespace. -/
def pstrip (s : Str) : Str := rstrip (lstrip s)

/-- The regex substitution `re.sub(r"[^\w\s]", " ", s)`: every character
that is neither a word character nor whitespace becomes a single space. -/
def punctSub (s : Str) : Str :=
  s.map (fun c => if isWordChar c || c.isWhitespace then c else ' ')

/-- The regex substitution `re.sub(r"\s+", " ", s)`: each maximal run of
whitespace collapses to one space (emitted at the last character of the
run, which yields the same string). -/
def collapseWs : Str → Str
  | [] => []
  | c :: cs =>
    if c.isWhitespace then
      match cs with
      | d :: _ => if d.isWhitespace then collapseWs cs else ' ' :: collapseWs cs
      | [] => [' ']
    else c :: collapseWs cs

/-- Single left-to-right replacement pass, structurally recursive on a
fuel argument (one unit of fuel per character consumed). -/
def pyReplaceFuel (pat rep : Str) : Nat → Str → Str
  | 0, s => s
  | _ + 1, [] => []
  | n + 1, c :: cs =>
    if pat ≠ [] ∧ (c :: cs).take pat.length = pat then
      rep ++ pyReplaceFuel pat rep n ((c :: cs).drop pat.length)
    else c :: pyReplaceFuel pat rep n cs

/-- Python `str.replace pat rep`: single left-to-right pass replacing
non-overlapping occurrences.  (The source never calls it with an empty
pattern; for an empty pattern this model is the identity.) -/
def pyReplace (pat rep s : Str) : Str := pyReplaceFuel pat rep s.length s

/-- Python substring test `needle in hay` (empty needle matches). -/
def occursIn (pat : Str) : Str → Bool
  | [] => pat.isEmpty
  | c :: cs => (c :: cs).take pat.length = pat || occursIn pat cs

/-- Python `str.split()` helper: current partial word is `acc` (reversed). -/
def splitWordsAux : Str → Str → List Str
  | [], acc => if acc = [] then [] else [acc.reverse]
  | c :: cs, acc =>
    if c.isWhitespace then
      if acc = [] then splitWordsAux cs [] else acc.reverse :: splitWordsAux cs []
    else splitWordsAux cs (c :: acc)

/-- Python `str.split()`: split on whitespace runs, dropping empties. -/
def splitWords (s : Str) : List Str := splitWordsAux s []

/-- `normalize_text` (src/server/app.py lines 142-170), the pure
computation (the `use_cache=False` path; the cache is modelled
separately by `normalizeC`). -/
def normalize_text (t : Str) : Str :=
  let t1 := pstrip (t.map lowerChar)
  let t2 := pyReplace "parkinson\x27s".toList "parkinson".toList t1
  let t3 := pyReplace "parkinsons".toList "parkinson".toList t2
  let t4 := pyReplace "alzheimer\x27s".toList "alzheimer".toList t3
  let t5 := pyReplace "alzheimers".toList "alzheimer".toList t4
  let t6 := pyReplace "\x27s".toList "s".toList t5
  let t7 := pyReplace "\x27".toList [] t6
  pstrip (collapseWs (punctSub t7))

/-! ## Kernel-reducible rational arithmetic

Python floats are modelled as exact rationals.  The Mathlib/Batteries
arithmetic on `ℚ` is `@[irreducible]`, so the model computes through
`mkRat`-based wrappers, each proved equal to the corresponding `ℚ`
operation; symbolic proofs rewrite through these bridge lemmas. -/

/-- Reducible addition on `ℚ`. -/
def qadd (a b : ℚ) : ℚ := mkRat (a.num * b.den + b.num * a.den) (a.den * b.den)

/-- Reducible negation on `ℚ`. -/
def qneg (a : ℚ) : ℚ := mkRat (-a.num) a.den

/-- Reducible subtraction on `ℚ`. -/
def qsub (a b : ℚ) : ℚ := qadd a (qneg b)

/-- Reducible multiplication on `ℚ`. -/
def qmul (a b : ℚ) : ℚ := mkRat (a.num * b.num) (a.den * b.den)

/-- Reducible inverse on `ℚ` (with `qinv 0 = 0`). -/
def qinv (a : ℚ) : ℚ :=
  mkRat (if a.num < 0 then -(a.den : ℤ) else (a.den : ℤ)) a.num.natAbs

/-- Reducible division on `ℚ` (with `qdiv a 0 = 0`, matching `ℚ`). -/
def qdiv (a b : ℚ) : ℚ := qmul a (qinv b)

/-- Reducible strict comparison on `ℚ`. -/
def qlt (a b : ℚ) : Bool := decide (a.num * b.den < b.num * a.den)

/-- Reducible non-strict comparison on `ℚ`. -/
def qle (a b : ℚ) : Bool := decide (a.num * b.den ≤ b.num * a.den)

/-- Python `max` on two floats: the second argument only when it is
strictly greater. -/
def qmax (a b : ℚ) : ℚ := if qlt a b then b else a

/-! ## The bounded normalization cache (`normalized_text_cache`) -/

/-- The normalization cache: insertion-ordered map from raw to
normalized text. -/
abbrev NormCache := List (Str × Str)

/-- Dict lookup in the cache. -/
def cacheFind (c : NormCache) (t : Str) : Option Str :=
  (c.find? (fun p => p.1 = t)).map (fun p => p.2)

/-- `normalize_text` with `use_cache=True` (lines 147-168): consult the
cache, else compute and insert while under the 10000-entry bound. -/
def normalizeC (c : NormCache) (t : Str) : Str × NormCache :=
  match cacheFind c t with
  | some v => (v, c)
  | none =>
    let r := normalize_text t
    (r, if c.length < 10000 then c ++ [(t, r)] else c)

/-- A cache is consistent when every stored entry is the true
normalization of its key — the invariant the program maintains, since
only `normalize_text` itself inserts entries. -/
def CacheOk (c : NormCache) : Prop :=
  ∀ p ∈ c, p.2 = normalize_text p.1

/-! ## QueryValidator: `is_valid_medical_query` (lines 32-65) -/

/-- The fixed denylist of non-medical slang (lines 38-41). -/
def invalid_terms : List Str :=
  ["skibidi".toList, "gyatt".toList, "sigma".toList, "rizz".toList,
   "ohio".toList, "sus".toList, "amogus".toList, "test".toList,
   "asdf".toList, "qwerty".toList, "123".toList, "hello".toList,
   "hi".toList, "yo".toList]

/-- Regex `(.)\1{3,}` searched: four or more identical consecutive
characters somewhere in the string. -/
def hasRun4 : Str → Bool
  | a :: b :: c :: d :: rest =>
    (a = b && b = c && c = d) || hasRun4 (b :: c :: d :: rest)
  | _ => false

/-- Regex `^[aeiou]+$`: the whole (nonempty) string is vowels. -/
def allVowels (s : Str) : Bool :=
  !s.isEmpty && s.all (fun c => c ∈ ['a', 'e', 'i', 'o', 'u'])

/-- Regex `^[bcdfg-z]+$`: the whole (nonempty) string is drawn from the
literal character class b, c, d, f, g-z. -/
def allConsonantClass (s : Str) : Bool :=
  !s.isEmpty && s.all (fun c => c ∈ ['b', 'c', 'd', 'f'] || ('g' ≤ c && c ≤ 'z'))

/-- A rare letter for the regex class `[qxz]`. -/
def isRareLetter (c : Char) : Bool := c ∈ ['q', 'x', 'z']

/-- Regex `[qxz]{2,}` searched: two adjacent rare letters somewhere. -/
def hasRareRun : Str → Bool
  | a :: b :: rest => (isRareLetter a && isRareLetter b) || hasRareRun (b :: rest)
  | _ => false

/-- `is_valid_medical_query` (lines 32-65).  The float threshold
`len(set(q)) < len(q) * 0.4` is modelled exactly as the rational
comparison `5 * distinct < 2 * length`. -/
def is_valid_medical_query (query : Str) : Bool :=
  if query = [] || (pstrip query).length < 3 then false
  else
    let ql := pstrip (query.map lowerChar)
    if ql ∈ invalid_terms then false
    else if 5 * ql.dedup.length < 2 * ql.length then false
    else if hasRun4 ql || allVowels ql || allConsonantClass ql || hasRareRun ql then false
    else true

/-! ## ClusterIndex (`load_data`, lines 109-125) -/

/-- Per-cluster precomputed data (`cluster_lookup` values): the raw
keyword list and the index-aligned normalized keyword list.  The
`keyword_set` of the source is membership in `normalized_keywords`. -/
structure ClusterData where
  keywords : List Str
  normalized_keywords : List Str
deriving DecidableEq

/-- The raw topic-keyword catalogue (`topic_keywords`): JSON object
mapping cluster-id strings to keyword lists, modelled with the ids
already converted by `int(...)` and in file order. -/
abbrev TopicKeywords := List (Int × List Str)

/-- `topic_keywords.get(str(cid), [])`. -/
def tkGet (tk : TopicKeywords) (cid : Int) : List Str :=
  ((tk.find? (fun p => p.1 = cid)).map (fun p => p.2)).getD []

/-- Building `cluster_lookup` (lines 111-119): every cluster id other
than `-1`, keeping catalogue order, with keywords normalized via the
pure (`use_cache=False`) normalization. -/
def buildClusterLookup (tk : TopicKeywords) : List (Int × ClusterData) :=
  (tk.filter (fun p => p.1 ≠ -1)).map
    (fun p => (p.1, ⟨p.2, p.2.map normalize_text⟩))

/-! ## ClusterScorer: `score_clusters_by_query` (lines 172-231) -/

/-- One scored cluster: `(cluster_id, score, matching_keywords)`. -/
structure ClusterScore where
  cid : Int
  score : ℚ
  matched : List (Str × ℚ)
deriving DecidableEq

/-- The per-keyword tiered contribution (lines 199-221): 10 exact, 7 if
the query is a substring of the keyword, 5 if the keyword is a substring
of the query, else the fractional word-overlap score; returns the score
increment and the `matching_keywords` entries appended. -/
def scoreKeyword (qn : Str) (qws : List Str) (kwRaw kwNorm : Str) :
    ℚ × List (Str × ℚ) :=
  if qn = kwNorm then (10, [(kwRaw, 10)])
  else if occursIn qn kwNorm then (7, [(kwRaw, 7)])
  else if occursIn kwNorm qn then (5, [(kwRaw, 5)])
  else
    let kws := (splitWords kwNorm).dedup
    let overlap := qws.filter (fun w => w ∈ kws)
    if overlap ≠ [] then
      let os : ℚ := qdiv ((overlap.length * 2 : ℕ) : ℚ) ((max qws.length kws.length : ℕ) : ℚ)
      (os, if qlt (mkRat 1 2) os then [(kwRaw, os)] else [])
    else (0, [])

/-- Summing the tiered contributions over a cluster's keyword list. -/
def scoreCluster (qn : Str) (qws : List Str) (cd : ClusterData) :
    ℚ × List (Str × ℚ) :=
  (cd.keywords.zip cd.normalized_keywords).foldl
    (fun acc p =>
      let r := scoreKeyword qn qws p.1 p.2
      (qadd acc.1 r.1, acc.2 ++ r.2))
    (0, [])

/-- The cheap rejection test (lines 186-196): skip the cluster when the
query words do not intersect the keyword set, the normalized query is
not in the keyword set, and no keyword matches the query as a substring
in either direction. -/
def quickReject (qn : Str) (qws : List Str) (cd : ClusterData) : Bool :=
  !(qws.any (fun w => w ∈ cd.normalized_keywords)
      || qn ∈ cd.normalized_keywords
      || cd.normalized_keywords.any (fun kw => occursIn qn kw || occursIn kw qn))

/-- The main scoring loop (lines 182-228): quick rejection, detailed
scoring, drop score-0 clusters, and the `score > 50` early break (the
high-scoring cluster is appended before the break). -/
def scoreLoop (qn : Str) (qws : List Str) :
    List (Int × ClusterData) → List ClusterScore
  | [] => []
  | (cid, cd) :: rest =>
    if quickReject qn qws cd then scoreLoop qn qws rest
    else
      let r := scoreCluster qn qws cd
      if qlt 0 r.1 then
        if qlt 50 r.1 then [⟨cid, r.1, r.2⟩]
        else ⟨cid, r.1, r.2⟩ :: scoreLoop qn qws rest
      else scoreLoop qn qws rest

/-- Stable insertion for a descending sort: the new element goes after
every already-placed element that is not strictly below it. -/
def insertDescBy {α : Type} (lt : α → α → Bool) (x : α) : List α → List α
  | [] => [x]
  | y :: ys => if lt y x then x :: y :: ys else y :: insertDescBy lt x ys

/-- Python `list.sort(key=..., reverse=True)`: stable descending sort. -/
def sortDescBy {α : Type} (lt : α → α → Bool) (l : List α) : List α :=
  l.foldl (fun acc x => insertDescBy lt x acc) []

/-- `score_clusters_by_query` (lines 172-231) over a prebuilt lookup. -/
def score_clusters_by_query (lookup : List (Int × ClusterData)) (query : Str) :
    List ClusterScore :=
  let qn := normalize_text query
  let qws := (splitWords qn).dedup
  sortDescBy (fun a b => qlt a.score b.score) (scoreLoop qn qws lookup)

/-- Modelled from the spec: "exhaustively applying the tiered scoring to
every cluster" — the same tiered scorer applied to every cluster with no
cheap rejection and no early break, dropping score-0 clusters and
sorting by score descending (the baseline the refinement claim C1
compares against). -/
def exhaustiveTieredScores (lookup : List (Int × ClusterData)) (query : Str) :
    List ClusterScore :=
  let qn := normalize_text query
  let qws := (splitWords qn).dedup
  sortDescBy (fun a b => qlt a.score b.score)
    (((lookup.map (fun p =>
        let r := scoreCluster qn qws p.2
        (⟨p.1, r.1, r.2⟩ : ClusterScore))).filter (fun e => qlt 0 e.score)))

/-! ## KeywordWeighter: `get_weighted_keywords` (lines 233-282) -/

/-- Keyword-query similarity (lines 252-261): 1.0 exact, 0.8 substring
either way, else token-overlap ratio, floored to 0.1 when the word sets
are disjoint. -/
def kwSimilarity (qn : Str) (qws : List Str) (kwNorm : Str) : ℚ :=
  if qn = kwNorm then 1
  else if occursIn qn kwNorm || occursIn kwNorm qn then mkRat 4 5
  else
    let kws := (splitWords kwNorm).dedup
    let overlap := qws.filter (fun w => w ∈ kws)
    if overlap ≠ [] then
      qdiv ((overlap.length : ℕ) : ℚ) ((max qws.length kws.length : ℕ) : ℚ)
    else mkRat 1 10

/-- Dict update `weighted_keywords[kw] = max(old, v)` with Python dict
insertion-order semantics: an existing key keeps its position. -/
def wkInsert (m : List (Str × ℚ)) (kw : Str) (v : ℚ) : List (Str × ℚ) :=
  if m.any (fun p => p.1 = kw) then
    m.map (fun p => if p.1 = kw then (p.1, qmax p.2 v) else p)
  else m ++ [(kw, v)]

/-- Processing one cluster of `get_weighted_keywords` at rank `rank`
(lines 241-280): cluster weight `1 - rank*0.1` (no floor), similarity
scoring, stable descending sort, `max 3 (len // 3)` cutoff, position
weighting, and max-merging into the map. -/
def gwkCluster (tk : TopicKeywords) (qn : Str) (qws : List Str) (rank : Nat)
    (cid : Int) (m : List (Str × ℚ)) : List (Str × ℚ) :=
  let cw := qsub 1 (qmul ((rank : ℕ) : ℚ) (mkRat 1 10))
  let allkw := tkGet tk cid
  let scores := allkw.map (fun kw => (kw, kwSimilarity qn qws (normalize_text kw)))
  let sorted := sortDescBy (fun a b => qlt a.2 b.2) scores
  let cutoff := max 3 (scores.length / 3)
  let top := sorted.take cutoff
  top.foldl
    (fun acc p =>
      let position := if p.1 ∈ allkw then allkw.indexOf p.1 else allkw.length
      let pw := qsub 1 (qmul (qdiv ((position : ℕ) : ℚ) ((allkw.length : ℕ) : ℚ)) (mkRat 3 10))
      wkInsert acc p.1 (qmul (qmul cw p.2) pw))
    m

/-- The enumerated loop over `top_clusters`. -/
def gwkLoop (tk : TopicKeywords) (qn : Str) (qws : List Str) :
    Nat → List ClusterScore → List (Str × ℚ) → List (Str × ℚ)
  | _, [], m => m
  | rank, c :: rest, m =>
    gwkLoop tk qn qws (rank + 1) rest (gwkCluster tk qn qws rank c.cid m)

/-- `get_weighted_keywords` (lines 233-282). -/
def get_weighted_keywords (top_clusters : List ClusterScore) (tk : TopicKeywords)
    (query : Str) : List (Str × ℚ) :=
  let qn := normalize_text query
  let qws := (splitWords qn).dedup
  gwkLoop tk qn qws 0 top_clusters []

/-! ## Records, result formatting, CandidateFilter and RecordScorer -/

/-- A specialist record with the fields the engine reads.  Missing or
NaN text fields are modelled as the empty string (both are skipped by
the `if not field_value or pd.isna(...)` guard); a missing/NaN
`relevancy_score` is `none`.  `norm_state`/`norm_city` are the
precomputed `_norm_state`/`_norm_city` columns from `load_data`. -/
structure Specialist where
  idx : Nat
  topic_cluster : Int
  relevancy_score : Option ℚ
  topic_confidence : ℚ
  rare_diseases_treated : Str
  research_interests : Str
  clinical_focus : Str
  specialty : Str
  norm_state : Str
  norm_city : Str
deriving DecidableEq

/-- Floor of a rational (denominators are positive in `ℚ`). -/
def qfloorInt (q : ℚ) : ℤ := Int.fdiv q.num q.den

/-- Python banker's rounding to an integer (round-half-even on the
exact rational value). -/
def roundHalfEven (q : ℚ) : ℤ :=
  let f := qfloorInt q
  let r := qsub q ((f : ℤ) : ℚ)
  if qlt r (mkRat 1 2) then f
  else if qlt (mkRat 1 2) r then f + 1
  else if f % 2 = 0 then f else f + 1

/-- Python `round(x, 2)`. -/
def round2 (q : ℚ) : ℚ := qdiv ((roundHalfEven (qmul q 100) : ℤ) : ℚ) 100

/-- The fields of `format_specialist_result` (lines 326-360) that the
engine computes (identity, cluster, and scores; display-only echoes of
raw profile fields are omitted). -/
structure SearchResult where
  id : Nat
  topic_cluster : Int
  total_score : ℚ
  relevancy_score : ℚ
deriving DecidableEq

/-- `format_specialist_result` (lines 326-360): `total_score` and
`search_score` are `round(score, 2)`; `relevancy_score` echoes the
record's value with default 0. -/
def format_specialist_result (s : Specialist) (score : ℚ) : SearchResult :=
  ⟨s.idx, s.topic_cluster, round2 score, s.relevancy_score.getD 0⟩

/-- `is_simple_query` (lines 284-288). -/
def is_simple_query (query : Str) : Bool :=
  let ws := splitWords (normalize_text query)
  ws.length ≤ 2 && ws.all (fun w => 2 < w.length)

/-- `filter_specialists_fast_path` (lines 290-324): direct containment
of the normalized query in a cluster's normalized keyword set, optional
location substring filter, `head(max_results*2)`, coarse scoring, and a
stable descending sort. -/
def fast_path (df : List Specialist) (lookup : List (Int × ClusterData))
    (query loc : Str) (max_results : Nat) : List SearchResult :=
  let qn := normalize_text query
  let matching := (lookup.filter (fun p => qn ∈ p.2.normalized_keywords)).map (fun p => p.1)
  if matching = [] then []
  else
    let f1 := df.filter (fun s => s.topic_cluster ∈ matching)
    let f2 :=
      if loc ≠ [] then
        let ln := normalize_text loc
        f1.filter (fun s => occursIn ln s.norm_state || occursIn ln s.norm_city)
      else f1
    let scored := (f2.take (max_results * 2)).map (fun s =>
      let b0 : ℚ := if s.topic_cluster ∈ matching.take 3 then 5 else 3
      let b1 := match s.relevancy_score with
        | some r => qadd b0 (qmul r (mkRat 1 2))
        | none => b0
      (s, b1))
    let sorted := sortDescBy (fun a b => qlt a.2 b.2) scored
    (sorted.take max_results).map (fun p => format_specialist_result p.1 p.2)

/-- The profile-field weight table of the full path (lines 437-442),
in dict insertion order. -/
def profile_fields (s : Specialist) : List (Str × ℚ) :=
  [(s.rare_diseases_treated, mkRat 3 2), (s.research_interests, mkRat 6 5),
   (s.clinical_focus, 1), (s.specialty, mkRat 4 5)]

/-- The keyword loop over one field (lines 454-465), with the
`field_score > 5.0` early break. -/
def fieldLoop (fw : ℚ) (ft : Str) : List (Str × ℚ) → ℚ → ℚ
  | [], acc => acc
  | (kw, w) :: rest, acc =>
    let kwn := normalize_text kw
    if occursIn kwn ft then
      let mq : ℚ := if kwn = ft then 1 else mkRat 4 5
      let acc2 := qadd acc (qmul (qmul w fw) mq)
      if qlt 5 acc2 then acc2 else fieldLoop fw ft rest acc2
    else fieldLoop fw ft rest acc

/-- The loop over the four profile fields of one record (lines
444-467): empty raw values and empty normalized texts are skipped, each
remaining field adds its `fieldLoop` score. -/
def fieldsLoop (wk : List (Str × ℚ)) : List (Str × ℚ) → ℚ → ℚ
  | [], sc => sc
  | f :: rest, sc =>
    if f.1 = [] then fieldsLoop wk rest sc
    else
      let ft := normalize_text f.1
      if ft = [] then fieldsLoop wk rest sc
      else fieldsLoop wk rest (qadd sc (fieldLoop f.2 ft wk 0))

/-- Scoring one record in the full path (lines 420-467): cluster-rank
bonus `(5 - rank) * 2`, plus `relevancy_score * 0.5`, the `score < 0.5`
skip (returns `none`), then weighted-keyword field scoring. -/
def recordScore (top : List ClusterScore) (wk : List (Str × ℚ)) (s : Specialist) :
    Option ℚ :=
  let cids := top.map (fun c => c.cid)
  let b1 : ℚ :=
    if s.topic_cluster ∈ cids then
      qmul (((5 - (cids.indexOf s.topic_cluster : ℤ)) : ℤ) : ℚ) 2
    else 0
  let b2 := match s.relevancy_score with
    | some r => qadd b1 (qmul r (mkRat 1 2))
    | none => b1
  if qlt b2 (mkRat 1 2) then none
  else some (fieldsLoop wk (profile_fields s) b2)

/-- The specialist loop of the full path (lines 416-474): records with
positive score are appended; early exit once `max_results*2` scores are
collected and the current score drops below 1.5. -/
def specLoop (top : List ClusterScore) (wk : List (Str × ℚ)) (max_results : Nat) :
    List Specialist → List (Specialist × ℚ) → List (Specialist × ℚ)
  | [], acc => acc
  | s :: rest, acc =>
    match recordScore top wk s with
    | none => specLoop top wk max_results rest acc
    | some v =>
      if qlt 0 v then
        let acc2 := acc ++ [(s, v)]
        if max_results * 2 ≤ acc2.length ∧ qlt v (mkRat 3 2) then acc2
        else specLoop top wk max_results rest acc2
      else specLoop top wk max_results rest acc

/-- Descending order on optional relevancy scores with `none` last
(pandas `sort_values(ascending=False, na_position='last')`; the
unstable deterministic quicksort is modelled by the stable sort, a
deterministic refinement of the same key order). -/
def relLtB : Option ℚ → Option ℚ → Bool
  | none, some _ => true
  | some a, some b => qlt a b
  | _, _ => false

/-- The scored-specialists stage of the full path (lines 377-478),
before truncation and formatting. -/
def full_path_scores (df : List Specialist) (lookup : List (Int × ClusterData))
    (tk : TopicKeywords) (query loc : Str) (max_results : Nat) :
    List (Specialist × ℚ) :=
  let cs := score_clusters_by_query lookup query
  let top := cs.take 3
  if top = [] then []
  else
    let wk := get_weighted_keywords top tk query
    let f1 :=
      if loc ≠ [] then
        let ln := normalize_text loc
        df.filter (fun s => occursIn ln s.norm_state || occursIn ln s.norm_city)
      else df.filter (fun s => s.topic_cluster ∈ top.map (fun c => c.cid))
    let maxIter := min f1.length 2000
    let f2 := sortDescBy (fun a b => relLtB a.relevancy_score b.relevancy_score) f1
    specLoop top wk max_results (f2.take maxIter) []

/-- The full path of `filter_specialists` (lines 377-495): scored
records sorted by score descending (stable) and truncated to
`max_results`, then formatted. -/
def full_path (df : List Specialist) (lookup : List (Int × ClusterData))
    (tk : TopicKeywords) (query loc : Str) (max_results : Nat) : List SearchResult :=
  let cs := score_clusters_by_query lookup query
  if cs.take 3 = [] then []
  else
    let scores := full_path_scores df lookup tk query loc max_results
    let sorted := sortDescBy (fun a b => qlt a.2 b.2) scores
    (sorted.take max_results).map (fun p => format_specialist_result p.1 p.2)

/-- `filter_specialists` (lines 362-495): fast path attempted for
simple queries when the cluster lookup is nonempty; its results are
returned only when nonempty, otherwise the full path runs. -/
def filter_specialists (df : List Specialist) (lookup : List (Int × ClusterData))
    (tk : TopicKeywords) (query loc : Str) (max_results : Nat) : List SearchResult :=
  if is_simple_query query && !lookup.isEmpty then
    let r := fast_path df lookup query loc max_results
    if r ≠ [] then r else full_path df lookup tk query loc max_results
  else full_path df lookup tk query loc max_results

/-! ## Cache-threaded pipeline

The engine calls `normalize_text` with `use_cache=True` everywhere at
request time; these variants thread the shared `normalized_text_cache`
through every such call, mirroring the source call order.  They are the
subject of the determinism claim: the returned results never depend on
the cache state, provided the cache invariant `CacheOk` holds. -/

/-- Sequentially normalize a list of strings through the cache. -/
def mapStateNorm (c : NormCache) : List Str → List Str × NormCache
  | [] => ([], c)
  | t :: ts =>
    let p := normalizeC c t
    let r := mapStateNorm p.2 ts
    (p.1 :: r.1, r.2)

/-- `is_simple_query` with the cache threaded through. -/
def is_simple_queryC (c : NormCache) (query : Str) : Bool × NormCache :=
  let p := normalizeC c query
  let ws := splitWords p.1
  (ws.length ≤ 2 && ws.all (fun w => 2 < w.length), p.2)

/-- `score_clusters_by_query` with the cache threaded through (the
keyword side is prenormalized at build time with `use_cache=False`). -/
def score_clusters_by_queryC (c : NormCache) (lookup : List (Int × ClusterData))
    (query : Str) : List ClusterScore × NormCache :=
  let p := normalizeC c query
  (sortDescBy (fun a b => qlt a.score b.score)
    (scoreLoop p.1 (splitWords p.1).dedup lookup), p.2)

/-- One cluster of `get_weighted_keywords` with the cache threaded
through the per-keyword normalizations. -/
def gwkClusterC (c : NormCache) (tk : TopicKeywords) (qn : Str) (qws : List Str)
    (rank : Nat) (cid : Int) (m : List (Str × ℚ)) : List (Str × ℚ) × NormCache :=
  let cw := qsub 1 (qmul ((rank : ℕ) : ℚ) (mkRat 1 10))
  let allkw := tkGet tk cid
  let pn := mapStateNorm c allkw
  let scores := (allkw.zip pn.1).map (fun p => (p.1, kwSimilarity qn qws p.2))
  let sorted := sortDescBy (fun a b => qlt a.2 b.2) scores
  let cutoff := max 3 (scores.length / 3)
  let top := sorted.take cutoff
  (top.foldl
    (fun acc p =>
      let position := if p.1 ∈ allkw then allkw.indexOf p.1 else allkw.length
      let pw := qsub 1 (qmul (qdiv ((position : ℕ) : ℚ) ((allkw.length : ℕ) : ℚ)) (mkRat 3 10))
      wkInsert acc p.1 (qmul (qmul cw p.2) pw))
    m, pn.2)

/-- The cluster loop of `get_weighted_keywords`, cache-threaded. -/
def gwkLoopC (c : NormCache) (tk : TopicKeywords) (qn : Str) (qws : List Str) :
    Nat → List ClusterScore → List (Str × ℚ) → List (Str × ℚ) × NormCache
  | _, [], m => (m, c)
  | rank, cl :: rest, m =>
    let p := gwkClusterC c tk qn qws rank cl.cid m
    gwkLoopC p.2 tk qn qws (rank + 1) rest p.1

/-- `get_weighted_keywords`, cache-threaded. -/
def get_weighted_keywordsC (c : NormCache) (top_clusters : List ClusterScore)
    (tk : TopicKeywords) (query : Str) : List (Str × ℚ) × NormCache :=
  let p := normalizeC c query
  gwkLoopC p.2 tk p.1 (splitWords p.1).dedup 0 top_clusters []

/-- `filter_specialists_fast_path`, cache-threaded. -/
def fast_pathC (c : NormCache) (df : List Specialist)
    (lookup : List (Int × ClusterData)) (query loc : Str) (max_results : Nat) :
    List SearchResult × NormCache :=
  let p := normalizeC c query
  let qn := p.1
  let matching := (lookup.filter (fun q => qn ∈ q.2.normalized_keywords)).map (fun q => q.1)
  if matching = [] then ([], p.2)
  else
    let f1 := df.filter (fun s => s.topic_cluster ∈ matching)
    let pf :=
      if loc ≠ [] then
        let pl := normalizeC p.2 loc
        (f1.filter (fun s => occursIn pl.1 s.norm_state || occursIn pl.1 s.norm_city), pl.2)
      else (f1, p.2)
    let scored := (pf.1.take (max_results * 2)).map (fun s =>
      let b0 : ℚ := if s.topic_cluster ∈ matching.take 3 then 5 else 3
      let b1 := match s.relevancy_score with
        | some r => qadd b0 (qmul r (mkRat 1 2))
        | none => b0
      (s, b1))
    let sorted := sortDescBy (fun a b => qlt a.2 b.2) scored
    ((sorted.take max_results).map (fun q => format_specialist_result q.1 q.2), pf.2)

/-- The keyword loop over one field, cache-threaded. -/
def fieldLoopC (c : NormCache) (fw : ℚ) (ft : Str) :
    List (Str × ℚ) → ℚ → ℚ × NormCache
  | [], acc => (acc, c)
  | (kw, w) :: rest, acc =>
    let pk := normalizeC c kw
    if occursIn pk.1 ft then
      let mq : ℚ := if pk.1 = ft then 1 else mkRat 4 5
      let acc2 := qadd acc (qmul (qmul w fw) mq)
      if qlt 5 acc2 then (acc2, pk.2) else fieldLoopC pk.2 fw ft rest acc2
    else fieldLoopC pk.2 fw ft rest acc

/-- The field loop of one record, cache-threaded. -/
def fieldsLoopC (c : NormCache) (wk : List (Str × ℚ)) :
    List (Str × ℚ) → ℚ → ℚ × NormCache
  | [], sc => (sc, c)
  | f :: rest, sc =>
    if f.1 = [] then fieldsLoopC c wk rest sc
    else
      let pf := normalizeC c f.1
      if pf.1 = [] then fieldsLoopC pf.2 wk rest sc
      else
        let pl := fieldLoopC pf.2 f.2 pf.1 wk 0
        fieldsLoopC pl.2 wk rest (qadd sc pl.1)

/-- Scoring one record in the full path, cache-threaded. -/
def recordScoreC (c : NormCache) (top : List ClusterScore) (wk : List (Str × ℚ))
    (s : Specialist) : Option ℚ × NormCache :=
  let cids := top.map (fun cl => cl.cid)
  let b1 : ℚ :=
    if s.topic_cluster ∈ cids then
      qmul (((5 - (cids.indexOf s.topic_cluster : ℤ)) : ℤ) : ℚ) 2
    else 0
  let b2 := match s.relevancy_score with
    | some r => qadd b1 (qmul r (mkRat 1 2))
    | none => b1
  if qlt b2 (mkRat 1 2) then (none, c)
  else
    let pf := fieldsLoopC c wk (profile_fields s) b2
    (some pf.1, pf.2)

/-- The specialist loop of the full path, cache-threaded. -/
def specLoopC (c : NormCache) (top : List ClusterScore) (wk : List (Str × ℚ))
    (max_results : Nat) :
    List Specialist → List (Specialist × ℚ) → List (Specialist × ℚ) × NormCache
  | [], acc => (acc, c)
  | s :: rest, acc =>
    let pr := recordScoreC c top wk s
    match pr.1 with
    | none => specLoopC pr.2 top wk max_results rest acc
    | some v =>
      if qlt 0 v then
        let acc2 := acc ++ [(s, v)]
        if max_results * 2 ≤ acc2.length ∧ qlt v (mkRat 3 2) then (acc2, pr.2)
        else specLoopC pr.2 top wk max_results rest acc2
      else specLoopC pr.2 top wk max_results rest acc

/-- The full path of `filter_specialists`, cache-threaded. -/
def full_pathC (c : NormCache) (df : List Specialist)
    (lookup : List (Int × ClusterData)) (tk : TopicKeywords) (query loc : Str)
    (max_results : Nat) : List SearchResult × NormCache :=
  let pcs := score_clusters_by_queryC c lookup query
  let top := pcs.1.take 3
  if top = [] then ([], pcs.2)
  else
    let pwk := get_weighted_keywordsC pcs.2 top tk query
    let pf :=
      if loc ≠ [] then
        let pl := normalizeC pwk.2 loc
        (df.filter (fun s => occursIn pl.1 s.norm_state || occursIn pl.1 s.norm_city), pl.2)
      else (df.filter (fun s => s.topic_cluster ∈ top.map (fun cl => cl.cid)), pwk.2)
    let maxIter := min pf.1.length 2000
    let f2 := sortDescBy (fun a b => relLtB a.relevancy_score b.relevancy_score) pf.1
    let ps := specLoopC pf.2 top pwk.1 max_results (f2.take maxIter) []
    let sorted := sortDescBy (fun a b => qlt a.2 b.2) ps.1
    ((sorted.take max_results).map (fun q => format_specialist_result q.1 q.2), ps.2)

/-- `filter_specialists`, cache-threaded. -/
def filter_specialistsC (c : NormCache) (df : List Specialist)
    (lookup : List (Int × ClusterData)) (tk : TopicKeywords) (query loc : Str)
    (max_results : Nat) : List SearchResult × NormCache :=
  let ps := is_simple_queryC c query
  if ps.1 && !lookup.isEmpty then
    let pr := fast_pathC ps.2 df lookup query loc max_results
    if pr.1 ≠ [] then pr
    else full_pathC pr.2 df lookup tk query loc max_results
  else full_pathC ps.2 df lookup tk query loc max_results

/-! ## The search endpoint `search_specialists` (lines 497-549) -/

/-- The JSON response of the search endpoint, restricted to the fields
the error-handling contract talks about: HTTP status, `success`, the
`invalid_query` flag (false when the key is absent from the payload),
`total_results`, and `results`. -/
structure ApiResponse where
  status : Nat
  success : Bool
  invalid_query : Bool
  total_results : Option Nat
  results : List SearchResult
deriving DecidableEq

/-- `search_specialists` (lines 497-549): empty query → 400 error;
validator rejection → HTTP 200 success payload with
`invalid_query: true` and no results; missing catalogue → 500;
otherwise the filtered results. -/
def search_specialists (catalog : Option (List Specialist))
    (lookup : List (Int × ClusterData)) (tk : TopicKeywords)
    (rawQuery rawLoc : Str) (rawLimit : Nat) : ApiResponse :=
  let query := pstrip rawQuery
  let loc := pstrip rawLoc
  let max_results := min rawLimit 50
  if query = [] then ⟨400, false, false, none, []⟩
  else if !is_valid_medical_query query then ⟨200, true, true, some 0, []⟩
  else
    match catalog with
    | none => ⟨500, false, false, none, []⟩
    | some df =>
      let results := filter_specialists df lookup tk query loc max_results
      ⟨200, true, false, some results.length, results⟩

/-! ## Support predicates for the normalization analysis -/

/-- No two adjacent whitespace characters. -/
def noAdjWs : Str → Bool
  | a :: b :: rest => (!(a.isWhitespace && b.isWhitespace)) && noAdjWs (b :: rest)
  | _ => true

/-- A character unchanged by `lowerChar` (not an ASCII capital). -/
def lowerFixed (c : Char) : Prop := ¬(65 ≤ c.toNat ∧ c.toNat ≤ 90)

instance (c : Char) : Decidable (lowerFixed c) := by
  unfold lowerFixed
  infer_instance

/-! ## Helper lemmas: rational arithmetic bridges -/

theorem qadd_eq (a b : ℚ) : qadd a b = a + b := by
  rw [qadd, Rat.add_def]
  simp [Rat.normalize_eq_mkRat]

theorem qneg_eq (a : ℚ) : qneg a = -a := by
  rw [qneg, Rat.mkRat_eq_div]
  push_cast
  rw [neg_div, Rat.num_div_den]

theorem qsub_eq (a b : ℚ) : qsub a b = a - b := by
  rw [qsub, qadd_eq, qneg_eq, sub_eq_add_neg]

theorem qmul_eq (a b : ℚ) : qmul a b = a * b := by
  rw [qmul, Rat.mul_def]
  simp [Rat.normalize_eq_mkRat]

theorem qinv_eq (a : ℚ) : qinv a = a⁻¹ := by
  have hrhs : a⁻¹ = (a.den : ℚ) / (a.num : ℚ) := by
    conv_lhs => rw [← Rat.num_div_den a]
    rw [inv_div]
  rw [qinv, Rat.mkRat_eq_div, hrhs]
  rcases lt_or_le a.num 0 with h | h
  · rw [if_pos h]
    have hna : ((a.num.natAbs : ℕ) : ℚ) = -(a.num : ℚ) := by
      rw [Int.cast_natAbs]
      exact_mod_cast abs_of_neg h
    push_cast
    rw [hna, neg_div_neg_eq]
  · rw [if_neg (not_lt.2 h)]
    have hna : ((a.num.natAbs : ℕ) : ℚ) = (a.num : ℚ) := by
      rw [Int.cast_natAbs]
      exact_mod_cast abs_of_nonneg h
    push_cast
    rw [hna]

theorem qdiv_eq (a b : ℚ) : qdiv a b = a / b := by
  rw [qdiv, qmul_eq, qinv_eq, div_eq_mul_inv]

theorem qlt_iff (a b : ℚ) : qlt a b = true ↔ a < b := by
  simp [qlt, Rat.lt_def]

theorem qle_iff (a b : ℚ) : qle a b = true ↔ a ≤ b := by
  simp [qle, Rat.le_def]

theorem qmax_eq (a b : ℚ) : qmax a b = max a b := by
  rw [qmax]
  rcases lt_or_le a b with h | h
  · rw [if_pos (qlt_iff a b |>.2 h), max_eq_right h.le]
  · rw [if_neg (by simp [qlt_iff, not_lt.2 h]), max_eq_left h]

/-! ## Helper lemmas: characters and lowercasing -/

theorem toNat_ofNat_valid (n : Nat) (h : n.isValidChar) : (Char.ofNat n).toNat = n := by
  unfold Char.ofNat
  rw [dif_pos h]
  simp [Char.ofNatAux, Char.toNat, UInt32.toNat, UInt32.ofNatCore]

theorem lowerChar_fixed (c : Char) (h : lowerFixed c) : lowerChar c = c := by
  unfold lowerChar
  rw [if_neg h]

theorem lowerFixed_lowerChar (c : Char) : lowerFixed (lowerChar c) := by
  unfold lowerChar
  by_cases h : 65 ≤ c.toNat ∧ c.toNat ≤ 90
  · rw [if_pos h]
    have hv : (c.toNat + 32).isValidChar := by
      left
      omega
    unfold lowerFixed
    rw [toNat_ofNat_valid _ hv]
    omega
  · rw [if_neg h]
    exact h

theorem word_not_ws (c : Char) (h : isWordChar c = true) : c.isWhitespace = false := by
  by_contra hne
  have hws : c.isWhitespace = true := by
    cases hv : c.isWhitespace
    · exact absurd hv hne
    · rfl
  have : c = ' ' ∨ c = '\t' ∨ c = '\r' ∨ c = '\n' := by
    unfold Char.isWhitespace at hws
    simp only [Bool.or_eq_true, decide_eq_true_eq] at hws
    tauto
  rcases this with rfl | rfl | rfl | rfl <;> simp [isWordChar] at h

/-! ## Helper lemmas: the normalization cache -/

seal normalize_text in
theorem cacheFind_eq (c : NormCache) (t : Str) (h : CacheOk c) (v : Str)
    (hv : cacheFind c t = some v) : v = normalize_text t := by
  unfold cacheFind at hv
  rcases Option.map_eq_some'.1 hv with ⟨p, hp, hv2⟩
  have hmem := List.mem_of_find?_eq_some hp
  have hkey := List.find?_some hp
  simp only [decide_eq_true_eq] at hkey
  rw [← hv2, h p hmem, hkey]

seal normalize_text in
theorem normalizeC_fst (c : NormCache) (t : Str) (h : CacheOk c) :
    (normalizeC c t).1 = normalize_text t := by
  rcases hv : cacheFind c t with _ | v
  · simp only [normalizeC, hv]
  · simp only [normalizeC, hv]
    exact cacheFind_eq c t h v hv

seal normalize_text in
theorem normalizeC_ok (c : NormCache) (t : Str) (h : CacheOk c) :
    CacheOk (normalizeC c t).2 := by
  rcases hv : cacheFind c t with _ | v
  · simp only [normalizeC, hv]
    by_cases hlen : c.length < 10000
    · rw [if_pos hlen]
      intro p hp
      rcases List.mem_append.1 hp with hp1 | hp2
      · exact h p hp1
      · rcases List.mem_singleton.1 hp2 with rfl
        rfl
    · rw [if_neg hlen]
      exact h
  · simp only [normalizeC, hv]
    exact h

seal normalize_text in
theorem mapStateNorm_spec (l : List Str) (c : NormCache) (h : CacheOk c) :
    (mapStateNorm c l).1 = l.map normalize_text ∧ CacheOk (mapStateNorm c l).2 := by
  induction l generalizing c with
  | nil => exact ⟨rfl, h⟩
  | cons t ts ih =>
    have h1 := normalizeC_fst c t h
    have h2 := normalizeC_ok c t h
    have ihx := ih (normalizeC c t).2 h2
    unfold mapStateNorm
    refine ⟨?_, ihx.2⟩
    simp only [List.map_cons]
    rw [h1, ihx.1]

/-! ## Helper lemmas: the cache-threaded pipeline computes the pure pipeline -/

seal normalize_text in
theorem is_simple_queryC_spec (c : NormCache) (q : Str) (h : CacheOk c) :
    (is_simple_queryC c q).1 = is_simple_query q ∧ CacheOk (is_simple_queryC c q).2 := by
  unfold is_simple_queryC is_simple_query
  dsimp only
  rw [normalizeC_fst c q h]
  exact ⟨rfl, normalizeC_ok c q h⟩

seal normalize_text in
theorem score_clusters_by_queryC_spec (c : NormCache)
    (lookup : List (Int × ClusterData)) (q : Str) (h : CacheOk c) :
    (score_clusters_by_queryC c lookup q).1 = score_clusters_by_query lookup q ∧
      CacheOk (score_clusters_by_queryC c lookup q).2 := by
  unfold score_clusters_by_queryC score_clusters_by_query
  dsimp only
  rw [normalizeC_fst c q h]
  exact ⟨rfl, normalizeC_ok c q h⟩

seal normalize_text in
theorem zipNormMap_eq (qn : Str) (qws : List Str) (l : List Str) :
    (l.zip (l.map normalize_text)).map (fun p => (p.1, kwSimilarity qn qws p.2)) =
      l.map (fun kw => (kw, kwSimilarity qn qws (normalize_text kw))) := by
  induction l with
  | nil => rfl
  | cons a t ih => simp only [List.map_cons, List.zip_cons_cons, ih]

seal normalize_text in
theorem gwkClusterC_spec (c : NormCache) (tk : TopicKeywords) (qn : Str)
    (qws : List Str) (rank : Nat) (cid : Int) (m : List (Str × ℚ)) (h : CacheOk c) :
    (gwkClusterC c tk qn qws rank cid m).1 = gwkCluster tk qn qws rank cid m ∧
      CacheOk (gwkClusterC c tk qn qws rank cid m).2 := by
  have hms := mapStateNorm_spec (tkGet tk cid) c h
  constructor
  · unfold gwkClusterC gwkCluster
    dsimp only
    rw [hms.1, zipNormMap_eq qn qws (tkGet tk cid)]
  · unfold gwkClusterC
    dsimp only
    exact hms.2

seal normalize_text in
theorem gwkLoopC_spec (c : NormCache) (tk : TopicKeywords) (qn : Str)
    (qws : List Str) (rank : Nat) (cls : List ClusterScore) (m : List (Str × ℚ))
    (h : CacheOk c) :
    (gwkLoopC c tk qn qws rank cls m).1 = gwkLoop tk qn qws rank cls m ∧
      CacheOk (gwkLoopC c tk qn qws rank cls m).2 := by
  induction cls generalizing c rank m with
  | nil => exact ⟨rfl, h⟩
  | cons cl rest ih =>
    have hc := gwkClusterC_spec c tk qn qws rank cl.cid m h
    unfold gwkLoopC gwkLoop
    rcases ih (gwkClusterC c tk qn qws rank cl.cid m).2 (rank + 1)
      (gwkClusterC c tk qn qws rank cl.cid m).1 hc.2 with ⟨ih1, ih2⟩
    rw [← hc.1]
    exact ⟨ih1, ih2⟩

seal normalize_text in
theorem get_weighted_keywordsC_spec (c : NormCache) (top : List ClusterScore)
    (tk : TopicKeywords) (q : Str) (h : CacheOk c) :
    (get_weighted_keywordsC c top tk q).1 = get_weighted_keywords top tk q ∧
      CacheOk (get_weighted_keywordsC c top tk q).2 := by
  have h2 := normalizeC_ok c q h
  have h1 := normalizeC_fst c q h
  unfold get_weighted_keywordsC get_weighted_keywords
  dsimp only
  rw [h1]
  exact gwkLoopC_spec (normalizeC c q).2 tk (normalize_text q)
    (splitWords (normalize_text q)).dedup 0 top [] h2

seal normalize_text in
theorem fast_pathC_spec (c : NormCache) (df : List Specialist)
    (lookup : List (Int × ClusterData)) (q loc : Str) (mr : Nat) (h : CacheOk c) :
    (fast_pathC c df lookup q loc mr).1 = fast_path df lookup q loc mr ∧
      CacheOk (fast_pathC c df lookup q loc mr).2 := by
  have h1 := normalizeC_fst c q h
  have h2 := normalizeC_ok c q h
  unfold fast_pathC fast_path
  dsimp only
  rw [h1]
  split_ifs with hm hl
  · exact ⟨rfl, h2⟩
  · have h3 := normalizeC_fst (normalizeC c q).2 loc h2
    have h4 := normalizeC_ok (normalizeC c q).2 loc h2
    dsimp only
    rw [h3]
    exact ⟨rfl, h4⟩
  · exact ⟨rfl, h2⟩

seal normalize_text in
theorem fieldLoopC_spec (kws : List (Str × ℚ)) (c : NormCache) (fw : ℚ) (ft : Str)
    (acc : ℚ) (h : CacheOk c) :
    (fieldLoopC c fw ft kws acc).1 = fieldLoop fw ft kws acc ∧
      CacheOk (fieldLoopC c fw ft kws acc).2 := by
  induction kws generalizing c acc with
  | nil => exact ⟨rfl, h⟩
  | cons kw rest ih =>
    obtain ⟨kwS, w⟩ := kw
    have h1 := normalizeC_fst c kwS h
    have h2 := normalizeC_ok c kwS h
    unfold fieldLoopC fieldLoop
    dsimp only
    rw [h1]
    split_ifs with ho hmq hq hq2
    · exact ⟨rfl, h2⟩
    · exact ih _ _ h2
    · exact ⟨rfl, h2⟩
    · exact ih _ _ h2
    · exact ih _ _ h2

seal normalize_text in
theorem fieldsLoopC_spec (fs : List (Str × ℚ)) (c : NormCache)
    (wk : List (Str × ℚ)) (sc : ℚ) (h : CacheOk c) :
    (fieldsLoopC c wk fs sc).1 = fieldsLoop wk fs sc ∧
      CacheOk (fieldsLoopC c wk fs sc).2 := by
  induction fs generalizing c sc with
  | nil => exact ⟨rfl, h⟩
  | cons f rest ih =>
    unfold fieldsLoopC fieldsLoop
    dsimp only
    by_cases he : f.1 = []
    · rw [if_pos he, if_pos he]
      exact ih _ _ h
    · rw [if_neg he, if_neg he]
      have h1 := normalizeC_fst c f.1 h
      have h2 := normalizeC_ok c f.1 h
      try dsimp only
      rw [h1]
      by_cases hf : normalize_text f.1 = []
      · rw [if_pos hf, if_pos hf]
        exact ih _ _ h2
      · rw [if_neg hf, if_neg hf]
        have hfl := fieldLoopC_spec wk (normalizeC c f.1).2 f.2 (normalize_text f.1) 0 h2
        rw [hfl.1]
        exact ih _ _ hfl.2

seal normalize_text in
theorem recordScoreC_spec (c : NormCache) (top : List ClusterScore)
    (wk : List (Str × ℚ)) (s : Specialist) (h : CacheOk c) :
    (recordScoreC c top wk s).1 = recordScore top wk s ∧
      CacheOk (recordScoreC c top wk s).2 := by
  unfold recordScoreC recordScore
  dsimp only
  split_ifs with h1 h2 h3
  all_goals
    first
      | exact ⟨rfl, h⟩
      | (dsimp only
         refine ⟨?_, (fieldsLoopC_spec _ _ _ _ h).2⟩
         rw [(fieldsLoopC_spec _ _ _ _ h).1])

seal normalize_text in
theorem specLoopC_spec (l : List Specialist) (c : NormCache)
    (top : List ClusterScore) (wk : List (Str × ℚ)) (mr : Nat)
    (acc : List (Specialist × ℚ)) (h : CacheOk c) :
    (specLoopC c top wk mr l acc).1 = specLoop top wk mr l acc ∧
      CacheOk (specLoopC c top wk mr l acc).2 := by
  induction l generalizing c acc with
  | nil => exact ⟨rfl, h⟩
  | cons s rest ih =>
    have hr := recordScoreC_spec c top wk s h
    unfold specLoopC specLoop
    dsimp only
    rw [hr.1]
    rcases hv : recordScore top wk s with _ | v
    · exact ih _ _ hr.2
    · dsimp only
      split_ifs with hp hbr
      · exact ⟨rfl, hr.2⟩
      · exact ih _ _ hr.2
      · exact ih _ _ hr.2

seal normalize_text in
theorem full_pathC_spec (c : NormCache) (df : List Specialist)
    (lookup : List (Int × ClusterData)) (tk : TopicKeywords) (q loc : Str)
    (mr : Nat) (h : CacheOk c) :
    (full_pathC c df lookup tk q loc mr).1 = full_path df lookup tk q loc mr ∧
      CacheOk (full_pathC c df lookup tk q loc mr).2 := by
  have hcs := score_clusters_by_queryC_spec c lookup q h
  unfold full_pathC full_path
  dsimp only
  rw [hcs.1]
  split_ifs with ht hl
  · exact ⟨rfl, hcs.2⟩
  · have hwk := get_weighted_keywordsC_spec (score_clusters_by_queryC c lookup q).2
      ((score_clusters_by_query lookup q).take 3) tk q hcs.2
    have h3 := normalizeC_fst (get_weighted_keywordsC (score_clusters_by_queryC c lookup q).2
      ((score_clusters_by_query lookup q).take 3) tk q).2 loc hwk.2
    have h4 := normalizeC_ok (get_weighted_keywordsC (score_clusters_by_queryC c lookup q).2
      ((score_clusters_by_query lookup q).take 3) tk q).2 loc hwk.2
    dsimp only
    rw [h3, hwk.1]
    rw [(specLoopC_spec _ _ _ _ _ _ h4).1]
    refine ⟨?_, (specLoopC_spec _ _ _ _ _ _ h4).2⟩
    unfold full_path_scores
    dsimp only
    rw [if_neg ht, if_pos hl]
  · have hwk := get_weighted_keywordsC_spec (score_clusters_by_queryC c lookup q).2
      ((score_clusters_by_query lookup q).take 3) tk q hcs.2
    dsimp only
    rw [hwk.1]
    rw [(specLoopC_spec _ _ _ _ _ _ hwk.2).1]
    refine ⟨?_, (specLoopC_spec _ _ _ _ _ _ hwk.2).2⟩
    unfold full_path_scores
    dsimp only
    rw [if_neg ht, if_neg hl]

seal normalize_text in
theorem filter_specialistsC_spec (c : NormCache) (df : List Specialist)
    (lookup : List (Int × ClusterData)) (tk : TopicKeywords) (q loc : Str)
    (mr : Nat) (h : CacheOk c) :
    (filter_specialistsC c df lookup tk q loc mr).1 =
        filter_specialists df lookup tk q loc mr ∧
      CacheOk (filter_specialistsC c df lookup tk q loc mr).2 := by
  have hs := is_simple_queryC_spec c q h
  unfold filter_specialistsC filter_specialists
  dsimp only
  rw [hs.1]
  by_cases hb : (is_simple_query q && !lookup.isEmpty) = true
  · rw [if_pos hb, if_pos hb]
    have hf := fast_pathC_spec (is_simple_queryC c q).2 df lookup q loc mr hs.2
    rw [hf.1]
    by_cases hr : fast_path df lookup q loc mr ≠ []
    · rw [if_pos hr, if_pos hr]
      exact ⟨hf.1, hf.2⟩
    · rw [if_neg hr, if_neg hr]
      exact ⟨(full_pathC_spec _ df lookup tk q loc mr hf.2).1,
        (full_pathC_spec _ df lookup tk q loc mr hf.2).2⟩
  · rw [if_neg hb, if_neg hb]
    exact ⟨(full_pathC_spec _ df lookup tk q loc mr hs.2).1,
      (full_pathC_spec _ df lookup tk q loc mr hs.2).2⟩

/-! ## Helper lemmas: the stable descending insertion sort -/

theorem mem_insertDescBy {α : Type} (lt : α → α → Bool) (x : α) (l : List α) (y : α) :
    y ∈ insertDescBy lt x l ↔ y = x ∨ y ∈ l := by
  induction l with
  | nil => simp [insertDescBy]
  | cons a t ih =>
    unfold insertDescBy
    by_cases hc : lt a x = true
    · rw [if_pos hc]
      simp only [List.mem_cons]
    · rw [if_neg hc]
      simp only [List.mem_cons, ih]
      tauto

theorem mem_sortDescBy {α : Type} (lt : α → α → Bool) (l : List α) (y : α) :
    y ∈ sortDescBy lt l ↔ y ∈ l := by
  suffices h : ∀ acc : List α,
      y ∈ l.foldl (fun acc x => insertDescBy lt x acc) acc ↔ y ∈ acc ∨ y ∈ l by
    have h2 := h []
    simpa [sortDescBy] using h2
  induction l with
  | nil => intro acc; simp
  | cons a t ih =>
    intro acc
    rw [List.foldl_cons, ih]
    simp only [mem_insertDescBy, List.mem_cons]
    tauto

theorem pairwise_insertDescBy {α : Type} (key : α → ℚ) (x : α) (l : List α)
    (h : l.Pairwise (fun a b => key b ≤ key a)) :
    (insertDescBy (fun a b => qlt (key a) (key b)) x l).Pairwise
      (fun a b => key b ≤ key a) := by
  induction l with
  | nil => simp [insertDescBy]
  | cons a t ih =>
    rcases List.pairwise_cons.1 h with ⟨ha, ht⟩
    unfold insertDescBy
    by_cases hc : qlt (key a) (key x) = true
    · rw [if_pos hc]
      refine List.pairwise_cons.2 ⟨?_, h⟩
      intro b hb
      rcases List.mem_cons.1 hb with rfl | hbt
      · exact ((qlt_iff _ _).1 hc).le
      · exact le_trans (ha b hbt) ((qlt_iff _ _).1 hc).le
    · rw [if_neg hc]
      have hxa : key x ≤ key a :=
        not_lt.1 (fun hlt => hc ((qlt_iff _ _).2 hlt))
      refine List.pairwise_cons.2 ⟨?_, ih ht⟩
      intro b hb
      rcases (mem_insertDescBy _ x t b).1 hb with rfl | hbt
      · exact hxa
      · exact ha b hbt

theorem filter_insertDescBy {α : Type} (key : α → ℚ) (x : α) (l : List α)
    (h : l.Pairwise (fun a b => key b ≤ key a)) (s : ℚ) :
    (insertDescBy (fun a b => qlt (key a) (key b)) x l).filter
        (fun a => decide (key a = s)) =
      if key x = s then l.filter (fun a => decide (key a = s)) ++ [x]
      else l.filter (fun a => decide (key a = s)) := by
  induction l with
  | nil =>
    by_cases hx : key x = s <;> simp [insertDescBy, hx]
  | cons a t ih =>
    rcases List.pairwise_cons.1 h with ⟨ha, ht⟩
    unfold insertDescBy
    by_cases hc : qlt (key a) (key x) = true
    · rw [if_pos hc]
      have hlt : key a < key x := (qlt_iff _ _).1 hc
      by_cases hx : key x = s
      · rw [if_pos hx]
        have hnil : (a :: t).filter (fun a => decide (key a = s)) = [] := by
          rw [List.filter_eq_nil_iff]
          intro b hb
          simp only [decide_eq_true_eq]
          intro he
          rcases List.mem_cons.1 hb with rfl | hbt
          · rw [he] at hlt
            rw [hx] at hlt
            exact absurd hlt (lt_irrefl s)
          · have hba := ha b hbt
            rw [he] at hba
            rw [hx] at hlt
            exact absurd (lt_of_le_of_lt hba hlt) (lt_irrefl s)
        rw [List.filter_cons_of_pos (by simp [hx]), hnil]
        rfl
      · rw [if_neg hx]
        rw [List.filter_cons_of_neg (by simp [hx])]
    · rw [if_neg hc]
      by_cases hpa : key a = s
      · rw [List.filter_cons_of_pos (by simp [hpa]), List.filter_cons_of_pos (by simp [hpa])]
        rw [ih ht]
        by_cases hx : key x = s
        · rw [if_pos hx, if_pos hx, List.cons_append]
        · rw [if_neg hx, if_neg hx]
      · rw [List.filter_cons_of_neg (by simp [hpa]), List.filter_cons_of_neg (by simp [hpa])]
        exact ih ht

theorem sortDescBy_spec {α : Type} (key : α → ℚ) (l : List α) :
    (sortDescBy (fun a b => qlt (key a) (key b)) l).Pairwise
        (fun a b => key b ≤ key a) ∧
      ∀ s, (sortDescBy (fun a b => qlt (key a) (key b)) l).filter
          (fun a => decide (key a = s)) = l.filter (fun a => decide (key a = s)) := by
  suffices h : ∀ acc : List α, acc.Pairwise (fun a b => key b ≤ key a) →
      (l.foldl (fun acc x => insertDescBy (fun a b => qlt (key a) (key b)) x acc)
          acc).Pairwise (fun a b => key b ≤ key a) ∧
        ∀ s, (l.foldl (fun acc x => insertDescBy (fun a b => qlt (key a) (key b)) x acc)
              acc).filter (fun a => decide (key a = s)) =
          acc.filter (fun a => decide (key a = s)) ++ l.filter (fun a => decide (key a = s)) by
    have h2 := h [] (List.Pairwise.nil)
    refine ⟨h2.1, fun s => ?_⟩
    have h3 := h2.2 s
    simpa [sortDescBy] using h3
  induction l with
  | nil => intro acc hacc; simp [hacc]
  | cons a t ih =>
    intro acc hacc
    rw [List.foldl_cons]
    rcases ih (insertDescBy (fun a b => qlt (key a) (key b)) a acc)
      (pairwise_insertDescBy key a acc hacc) with ⟨ih1, ih2⟩
    refine ⟨ih1, fun s => ?_⟩
    rw [ih2 s, filter_insertDescBy key a acc hacc s]
    by_cases hpa : key a = s
    · rw [if_pos hpa, List.filter_cons_of_pos (by simp [hpa]), List.append_assoc,
        List.singleton_append]
    · rw [if_neg hpa, List.filter_cons_of_neg (by simp [hpa])]

/-! ## Helper lemmas: cluster scoring -/

seal normalize_text in
theorem scoreLoop_mem (qn : Str) (qws : List Str) (lookup : List (Int × ClusterData))
    (e : ClusterScore) (he : e ∈ scoreLoop qn qws lookup) :
    qlt 0 e.score = true ∧ ∃ cd, (e.cid, cd) ∈ lookup := by
  induction lookup with
  | nil => simp [scoreLoop] at he
  | cons p rest ih =>
    obtain ⟨cid, cd⟩ := p
    unfold scoreLoop at he
    by_cases hq : quickReject qn qws cd = true
    · rw [if_pos hq] at he
      rcases ih he with ⟨h1, cd2, h2⟩
      exact ⟨h1, cd2, List.mem_cons_of_mem _ h2⟩
    · rw [if_neg hq] at he
      dsimp only at he
      by_cases hp : qlt 0 (scoreCluster qn qws cd).1 = true
      · rw [if_pos hp] at he
        by_cases hb : qlt 50 (scoreCluster qn qws cd).1 = true
        · rw [if_pos hb] at he
          rcases List.mem_singleton.1 he with rfl
          exact ⟨hp, cd, List.mem_cons_self _ _⟩
        · rw [if_neg hb] at he
          rcases List.mem_cons.1 he with rfl | ht
          · exact ⟨hp, cd, List.mem_cons_self _ _⟩
          · rcases ih ht with ⟨h1, cd2, h2⟩
            exact ⟨h1, cd2, List.mem_cons_of_mem _ h2⟩
      · rw [if_neg hp] at he
        rcases ih he with ⟨h1, cd2, h2⟩
        exact ⟨h1, cd2, List.mem_cons_of_mem _ h2⟩

theorem buildClusterLookup_mem (tk : TopicKeywords) (cid : Int) (cd : ClusterData)
    (h : (cid, cd) ∈ buildClusterLookup tk) : cid ≠ -1 := by
  unfold buildClusterLookup at h
  rcases List.mem_map.1 h with ⟨p, hp, he⟩
  have hf := List.of_mem_filter hp
  simp only [decide_eq_true_eq] at hf
  have : p.1 = cid := congrArg Prod.fst he
  rw [← this]
  exact hf

seal normalize_text in
theorem quickReject_facts (qn : Str) (qws : List Str) (cd : ClusterData)
    (h : quickReject qn qws cd = true) :
    (∀ kw ∈ cd.normalized_keywords,
      qn ≠ kw ∧ occursIn qn kw = false ∧ occursIn kw qn = false) ∧
    ∀ w ∈ qws, w ∉ cd.normalized_keywords := by
  unfold quickReject at h
  simp only [Bool.not_eq_true', Bool.or_eq_false_iff, List.any_eq_false,
    decide_eq_false_iff_not] at h
  rcases h with ⟨⟨hw, hqn⟩, hsub⟩
  constructor
  · intro kw hkw
    have hs := hsub kw hkw
    rw [Bool.or_eq_true] at hs
    push_neg at hs
    rcases hs with ⟨hs1, hs2⟩
    refine ⟨?_, by simpa using hs1, by simpa using hs2⟩
    intro he
    rw [he] at hqn
    exact absurd hkw (by simpa using hqn)
  · intro w hw2
    have := hw w hw2
    simpa using this

seal normalize_text in
theorem scoreKeyword_no_tier (qn : Str) (qws : List Str) (kwRaw kwNorm : Str)
    (h1 : qn ≠ kwNorm) (h2 : occursIn qn kwNorm = false)
    (h3 : occursIn kwNorm qn = false)
    (h4 : qws.filter (fun w => w ∈ (splitWords kwNorm).dedup) = []) :
    scoreKeyword qn qws kwRaw kwNorm = (0, []) := by
  unfold scoreKeyword
  rw [if_neg h1, if_neg (by simp [h2]), if_neg (by simp [h3])]
  dsimp only
  rw [if_neg (by rw [h4]; simp)]

/-! ## Helper lemmas: nonnegativity in the keyword weighter -/

theorem mkRat_nonneg_of (n : ℤ) (d : ℕ) (hn : 0 ≤ n) : 0 ≤ mkRat n d := by
  rw [Rat.mkRat_eq_div]
  positivity

seal normalize_text in
theorem kwSimilarity_nonneg (qn : Str) (qws : List Str) (kwNorm : Str) :
    0 ≤ kwSimilarity qn qws kwNorm := by
  unfold kwSimilarity
  dsimp only
  split_ifs with h1 h2 h3
  · norm_num
  · exact mkRat_nonneg_of 4 5 (by norm_num)
  · rw [qdiv_eq]
    positivity
  · exact mkRat_nonneg_of 1 10 (by norm_num)

theorem wkInsert_nonneg (m : List (Str × ℚ)) (kw : Str) (v : ℚ)
    (hm : ∀ p ∈ m, 0 ≤ p.2) (hv : 0 ≤ v) : ∀ p ∈ wkInsert m kw v, 0 ≤ p.2 := by
  unfold wkInsert
  by_cases hc : m.any (fun p => p.1 = kw) = true
  · rw [if_pos hc]
    intro p hp
    rcases List.mem_map.1 hp with ⟨p0, hp0, he⟩
    by_cases hk : p0.1 = kw
    · rw [if_pos hk] at he
      rw [← he]
      dsimp only
      rw [qmax_eq]
      exact le_max_of_le_left (hm p0 hp0)
    · rw [if_neg hk] at he
      rw [← he]
      exact hm p0 hp0
  · rw [if_neg hc]
    intro p hp
    rcases List.mem_append.1 hp with hp1 | hp2
    · exact hm p hp1
    · rcases List.mem_singleton.1 hp2 with rfl
      exact hv

theorem foldl_wkInsert_nonneg (f : Str × ℚ → ℚ) (l : List (Str × ℚ)) :
    ∀ acc : List (Str × ℚ), (∀ p ∈ acc, 0 ≤ p.2) → (∀ p ∈ l, 0 ≤ f p) →
      ∀ p ∈ l.foldl (fun m p => wkInsert m p.1 (f p)) acc, 0 ≤ p.2 := by
  induction l with
  | nil => intro acc hacc _ p hp; exact hacc p hp
  | cons a t ih =>
    intro acc hacc hf p hp
    rw [List.foldl_cons] at hp
    exact ih (wkInsert acc a.1 (f a))
      (wkInsert_nonneg acc a.1 (f a) hacc (hf a (List.mem_cons_self _ _)))
      (fun q hq => hf q (List.mem_cons_of_mem _ hq)) p hp

seal normalize_text in
theorem gwkCluster_nonneg (tk : TopicKeywords) (qn : Str) (qws : List Str)
    (rank : Nat) (cid : Int) (m : List (Str × ℚ)) (hrank : rank ≤ 10)
    (hm : ∀ p ∈ m, 0 ≤ p.2) : ∀ p ∈ gwkCluster tk qn qws rank cid m, 0 ≤ p.2 := by
  unfold gwkCluster
  dsimp only
  intro p hp
  refine foldl_wkInsert_nonneg _ _ m hm ?_ p hp
  intro q hq
  have hq2 : q ∈ (tkGet tk cid).map
      (fun kw => (kw, kwSimilarity qn qws (normalize_text kw))) := by
    have h3 := List.mem_of_mem_take hq
    exact (mem_sortDescBy _ _ q).1 h3
  have hsim : 0 ≤ q.2 := by
    rcases List.mem_map.1 hq2 with ⟨kw, _, he⟩
    rw [← he]
    exact kwSimilarity_nonneg qn qws (normalize_text kw)
  have hcw : 0 ≤ qsub 1 (qmul ((rank : ℕ) : ℚ) (mkRat 1 10)) := by
    rw [qsub_eq, qmul_eq, Rat.mkRat_eq_div]
    have : ((rank : ℕ) : ℚ) ≤ 10 := by
      exact_mod_cast hrank
    push_cast
    nlinarith
  have hpw : 0 ≤ qsub 1 (qmul (qdiv (((if q.1 ∈ tkGet tk cid then
      (tkGet tk cid).indexOf q.1 else (tkGet tk cid).length) : ℕ) : ℚ)
      (((tkGet tk cid).length : ℕ) : ℚ)) (mkRat 3 10)) := by
    rw [qsub_eq, qmul_eq, qdiv_eq, Rat.mkRat_eq_div]
    rcases Nat.eq_zero_or_pos (tkGet tk cid).length with hz | hpos
    · rw [hz]
      norm_num
    · have hle : ((if q.1 ∈ tkGet tk cid then (tkGet tk cid).indexOf q.1
          else (tkGet tk cid).length) : ℚ) ≤ ((tkGet tk cid).length : ℚ) := by
        by_cases hmem : q.1 ∈ tkGet tk cid
        · rw [if_pos hmem]
          have hidx : (tkGet tk cid).indexOf q.1 ≤ (tkGet tk cid).length := by
            unfold List.indexOf
            exact List.findIdx_le_length _
          exact_mod_cast hidx
        · rw [if_neg hmem]
      have hdiv : ((if q.1 ∈ tkGet tk cid then (tkGet tk cid).indexOf q.1
            else (tkGet tk cid).length) : ℚ) / ((tkGet tk cid).length : ℚ) ≤ 1 := by
        rw [div_le_one (by exact_mod_cast hpos)]
        exact hle
      have hdnn : (0:ℚ) ≤ ((if q.1 ∈ tkGet tk cid then (tkGet tk cid).indexOf q.1
            else (tkGet tk cid).length) : ℚ) / ((tkGet tk cid).length : ℚ) := by
        positivity
      push_cast at hdiv hdnn ⊢
      nlinarith
  rw [qmul_eq, qmul_eq]
  exact mul_nonneg (mul_nonneg hcw hsim) hpw

seal normalize_text in
theorem gwkLoop_nonneg (tk : TopicKeywords) (qn : Str) (qws : List Str)
    (cls : List ClusterScore) : ∀ (rank : Nat) (m : List (Str × ℚ)),
    rank + cls.length ≤ 11 → (∀ p ∈ m, 0 ≤ p.2) →
    ∀ p ∈ gwkLoop tk qn qws rank cls m, 0 ≤ p.2 := by
  induction cls with
  | nil => intro rank m _ hm p hp; exact hm p hp
  | cons cl rest ih =>
    intro rank m hb hm p hp
    unfold gwkLoop at hp
    refine ih (rank + 1) (gwkCluster tk qn qws rank cl.cid m) ?_ ?_ p hp
    · simp only [List.length_cons] at hb
      omega
    · refine gwkCluster_nonneg tk qn qws rank cl.cid m ?_ hm
      simp only [List.length_cons] at hb
      omega

/-! ## Helper lemmas: the record scorer and the candidate paths -/

seal normalize_text in
theorem recordScore_some_inv (top : List ClusterScore) (wk : List (Str × ℚ))
    (s : Specialist) (v : ℚ) (h : recordScore top wk s = some v) :
    s.topic_cluster ∈ top.map (fun c => c.cid) ∨
      ∃ r, s.relevancy_score = some r ∧ 1 ≤ r := by
  by_cases hmem : s.topic_cluster ∈ top.map (fun c => c.cid)
  · exact Or.inl hmem
  · right
    unfold recordScore at h
    dsimp only at h
    rw [if_neg hmem] at h
    rcases hr : s.relevancy_score with _ | r
    · rw [hr] at h
      rw [if_pos (by decide)] at h
      exact absurd h (by simp)
    · rw [hr] at h
      by_cases hsk : qlt (qadd 0 (qmul r (mkRat 1 2))) (mkRat 1 2) = true
      · rw [if_pos hsk] at h
        exact absurd h (by simp)
      · refine ⟨r, rfl, ?_⟩
        have h2 : ¬(qadd 0 (qmul r (mkRat 1 2)) < mkRat 1 2) :=
          fun hlt => hsk ((qlt_iff _ _).2 hlt)
        rw [qadd_eq, qmul_eq, Rat.mkRat_eq_div] at h2
        push_cast at h2
        linarith [not_lt.1 h2]

seal normalize_text in
theorem specLoop_mem_inv (top : List ClusterScore) (wk : List (Str × ℚ)) (mr : Nat)
    (l : List Specialist) : ∀ (acc : List (Specialist × ℚ)) (p : Specialist × ℚ),
    p ∈ specLoop top wk mr l acc →
    p ∈ acc ∨ recordScore top wk p.1 = some p.2 := by
  induction l with
  | nil => intro acc p hp; exact Or.inl hp
  | cons s rest ih =>
    intro acc p hp
    unfold specLoop at hp
    rcases hv : recordScore top wk s with _ | v
    · rw [hv] at hp
      exact ih acc p hp
    · rw [hv] at hp
      dsimp only at hp
      by_cases hpos : qlt 0 v = true
      · rw [if_pos hpos] at hp
        by_cases hbr : (mr * 2 ≤ (acc ++ [(s, v)]).length ∧ qlt v (mkRat 3 2) = true)
        · rw [if_pos hbr] at hp
          rcases List.mem_append.1 hp with hp1 | hp2
          · exact Or.inl hp1
          · rcases List.mem_singleton.1 hp2 with rfl
            exact Or.inr hv
        · rw [if_neg hbr] at hp
          rcases ih (acc ++ [(s, v)]) p hp with hin | hrs
          · rcases List.mem_append.1 hin with hp1 | hp2
            · exact Or.inl hp1
            · rcases List.mem_singleton.1 hp2 with rfl
              exact Or.inr hv
          · exact Or.inr hrs
      · rw [if_neg hpos] at hp
        exact ih acc p hp

seal normalize_text in
theorem full_path_mem_inv (df : List Specialist) (lookup : List (Int × ClusterData))
    (tk : TopicKeywords) (q loc : Str) (mr : Nat) (r : SearchResult)
    (hr : r ∈ full_path df lookup tk q loc mr) :
    ∃ p : Specialist × ℚ, p ∈ full_path_scores df lookup tk q loc mr ∧
      r = format_specialist_result p.1 p.2 := by
  unfold full_path at hr
  dsimp only at hr
  by_cases ht : (score_clusters_by_query lookup q).take 3 = []
  · rw [if_pos ht] at hr
    exact absurd hr (by simp)
  · rw [if_neg ht] at hr
    rcases List.mem_map.1 hr with ⟨p, hp, he⟩
    refine ⟨p, ?_, he.symm⟩
    have h2 := List.mem_of_mem_take hp
    exact (mem_sortDescBy _ _ p).1 h2

seal normalize_text in
theorem full_path_scores_mem_inv (df : List Specialist)
    (lookup : List (Int × ClusterData)) (tk : TopicKeywords) (q loc : Str)
    (mr : Nat) (p : Specialist × ℚ)
    (hp : p ∈ full_path_scores df lookup tk q loc mr) :
    recordScore ((score_clusters_by_query lookup q).take 3)
      (get_weighted_keywords ((score_clusters_by_query lookup q).take 3) tk q)
      p.1 = some p.2 := by
  unfold full_path_scores at hp
  dsimp only at hp
  by_cases ht : (score_clusters_by_query lookup q).take 3 = []
  · rw [if_pos ht] at hp
    exact absurd hp (by simp)
  · rw [if_neg ht] at hp
    by_cases hl : loc ≠ []
    · rw [if_pos hl] at hp
      rcases specLoop_mem_inv _ _ _ _ _ _ hp with hin | hrs
      · exact absurd hin (by simp)
      · exact hrs
    · rw [if_neg hl] at hp
      rcases specLoop_mem_inv _ _ _ _ _ _ hp with hin | hrs
      · exact absurd hin (by simp)
      · exact hrs

seal normalize_text in
theorem fast_path_mem_inv (df : List Specialist) (lookup : List (Int × ClusterData))
    (q loc : Str) (mr : Nat) (r : SearchResult)
    (hr : r ∈ fast_path df lookup q loc mr) :
    r.topic_cluster ∈ ((lookup.filter (fun p =>
      normalize_text q ∈ p.2.normalized_keywords)).map (fun p => p.1)) := by
  unfold fast_path at hr
  dsimp only at hr
  by_cases hm : ((lookup.filter (fun p =>
      normalize_text q ∈ p.2.normalized_keywords)).map (fun p => p.1)) = []
  · rw [if_pos hm] at hr
    exact absurd hr (by simp)
  · rw [if_neg hm] at hr
    rcases List.mem_map.1 hr with ⟨p, hp, he⟩
    have h2 := List.mem_of_mem_take hp
    have h3 := (mem_sortDescBy _ _ p).1 h2
    rcases List.mem_map.1 h3 with ⟨s, hs, he2⟩
    have hs2 := List.mem_of_mem_take hs
    by_cases hl : loc ≠ []
    · rw [if_pos hl] at hs2
      have hs3 := List.mem_filter.1 hs2
      have hs4 := List.mem_filter.1 hs3.1
      have htc : s.topic_cluster ∈ ((lookup.filter (fun p =>
          normalize_text q ∈ p.2.normalized_keywords)).map (fun p => p.1)) := by
        simpa using hs4.2
      have hfst : p.1 = s := congrArg Prod.fst he2 |>.symm
      have : r.topic_cluster = s.topic_cluster := by
        rw [← he]
        unfold format_specialist_result
        rw [hfst]
      rw [this]
      exact htc
    · rw [if_neg hl] at hs2
      have hs4 := List.mem_filter.1 hs2
      have htc : s.topic_cluster ∈ ((lookup.filter (fun p =>
          normalize_text q ∈ p.2.normalized_keywords)).map (fun p => p.1)) := by
        simpa using hs4.2
      have hfst : p.1 = s := congrArg Prod.fst he2 |>.symm
      have : r.topic_cluster = s.topic_cluster := by
        rw [← he]
        unfold format_specialist_result
        rw [hfst]
      rw [this]
      exact htc

/-! ## Helper lemmas: characters of normalized text -/

theorem mem_rstrip (s : Str) (c : Char) (h : c ∈ rstrip s) : c ∈ s := by
  induction s with
  | nil => simpa [rstrip] using h
  | cons a t ih =>
    unfold rstrip at h
    dsimp only at h
    by_cases hr : rstrip t = []
    · rw [if_pos hr] at h
      by_cases hw : a.isWhitespace
      · rw [if_pos hw] at h
        exact absurd h (by simp)
      · rw [if_neg hw] at h
        rcases List.mem_singleton.1 h with rfl
        exact List.mem_cons_self _ _
    · rw [if_neg hr] at h
      rcases List.mem_cons.1 h with rfl | ht
      · exact List.mem_cons_self _ _
      · exact List.mem_cons_of_mem _ (ih ht)

theorem mem_lstrip (s : Str) (c : Char) (h : c ∈ lstrip s) : c ∈ s :=
  (List.dropWhile_suffix _).sublist.subset h

theorem mem_pstrip (s : Str) (c : Char) (h : c ∈ pstrip s) : c ∈ s :=
  mem_lstrip s c (mem_rstrip (lstrip s) c h)

theorem mem_pyReplaceFuel (pat rep : Str) :
    ∀ (n : Nat) (s : Str) (c : Char), c ∈ pyReplaceFuel pat rep n s →
      c ∈ s ∨ c ∈ rep := by
  intro n
  induction n with
  | zero => intro s c h; exact Or.inl h
  | succ m ih =>
    intro s c h
    cases s with
    | nil => exact Or.inl h
    | cons a t =>
      unfold pyReplaceFuel at h
      by_cases hg : (pat ≠ [] ∧ (a :: t).take pat.length = pat)
      · rw [if_pos hg] at h
        rcases List.mem_append.1 h with h1 | h2
        · exact Or.inr h1
        · rcases ih _ c h2 with h3 | h4
          · exact Or.inl (List.mem_of_mem_drop h3)
          · exact Or.inr h4
      · rw [if_neg hg] at h
        rcases List.mem_cons.1 h with rfl | h2
        · exact Or.inl (List.mem_cons_self _ _)
        · rcases ih t c h2 with h3 | h4
          · exact Or.inl (List.mem_cons_of_mem _ h3)
          · exact Or.inr h4

theorem mem_pyReplace (pat rep s : Str) (c : Char) (h : c ∈ pyReplace pat rep s) :
    c ∈ s ∨ c ∈ rep :=
  mem_pyReplaceFuel pat rep s.length s c h

theorem mem_punctSub (s : Str) (c : Char) (h : c ∈ punctSub s) :
    c ∈ s ∨ c = ' ' := by
  rcases List.mem_map.1 h with ⟨d, hd, he⟩
  by_cases hc : (isWordChar d || d.isWhitespace) = true
  · rw [if_pos hc] at he
    exact Or.inl (he ▸ hd)
  · rw [if_neg hc] at he
    exact Or.inr he.symm

theorem punctSub_chars (s : Str) (c : Char) (h : c ∈ punctSub s) :
    isWordChar c = true ∨ c.isWhitespace = true := by
  rcases List.mem_map.1 h with ⟨d, _, he⟩
  by_cases hc : (isWordChar d || d.isWhitespace) = true
  · rw [if_pos hc] at he
    rw [← he]
    simpa using hc
  · rw [if_neg hc] at he
    right
    rw [← he]
    decide

theorem mem_collapseWs (s : Str) (c : Char) (h : c ∈ collapseWs s) :
    c = ' ' ∨ (c ∈ s ∧ c.isWhitespace = false) := by
  induction s with
  | nil => simpa [collapseWs] using h
  | cons a t ih =>
    unfold collapseWs at h
    by_cases hw : a.isWhitespace
    · rw [if_pos hw] at h
      cases t with
      | nil =>
        rcases List.mem_singleton.1 h with rfl
        exact Or.inl rfl
      | cons d ds =>
        dsimp only at h
        by_cases hd : d.isWhitespace
        · rw [if_pos hd] at h
          rcases ih h with h1 | ⟨h2, h3⟩
          · exact Or.inl h1
          · exact Or.inr ⟨List.mem_cons_of_mem _ h2, h3⟩
        · rw [if_neg hd] at h
          rcases List.mem_cons.1 h with rfl | h2
          · exact Or.inl rfl
          · rcases ih h2 with h1 | ⟨h3, h4⟩
            · exact Or.inl h1
            · exact Or.inr ⟨List.mem_cons_of_mem _ h3, h4⟩
    · rw [if_neg hw] at h
      rcases List.mem_cons.1 h with rfl | h2
      · exact Or.inr ⟨List.mem_cons_self _ _, by simpa using hw⟩
      · rcases ih h2 with h1 | ⟨h3, h4⟩
        · exact Or.inl h1
        · exact Or.inr ⟨List.mem_cons_of_mem _ h3, h4⟩

theorem normalize_chars_word_or_space (t : Str) (c : Char)
    (hc : c ∈ normalize_text t) : isWordChar c = true ∨ c = ' ' := by
  unfold normalize_text at hc
  dsimp only at hc
  have h1 := mem_pstrip _ c hc
  rcases mem_collapseWs _ c h1 with rfl | ⟨h2, hw⟩
  · exact Or.inr rfl
  · rcases punctSub_chars _ c h2 with h3 | h4
    · exact Or.inl h3
    · exact absurd h4 (by simp [hw])

theorem normalize_chars_lowerFixed (t : Str) (c : Char)
    (hc : c ∈ normalize_text t) : lowerFixed c := by
  unfold normalize_text at hc
  dsimp only at hc
  have h1 := mem_pstrip _ c hc
  rcases mem_collapseWs _ c h1 with rfl | ⟨h2, _⟩
  · decide
  · rcases mem_punctSub _ c h2 with h3 | rfl
    · have hrep : ∀ (pat rep s : Str), (∀ d ∈ s, lowerFixed d) →
          (∀ d ∈ rep, lowerFixed d) → ∀ d ∈ pyReplace pat rep s, lowerFixed d := by
        intro pat rep s hs hr d hd
        rcases mem_pyReplace pat rep s d hd with h5 | h6
        · exact hs d h5
        · exact hr d h6
      have base : ∀ d ∈ pstrip (t.map lowerChar), lowerFixed d := by
        intro d hd
        rcases List.mem_map.1 (mem_pstrip _ d hd) with ⟨e, _, he⟩
        rw [← he]
        exact lowerFixed_lowerChar e
      have s2 := hrep "parkinson\x27s".toList "parkinson".toList _ base (by decide)
      have s3 := hrep "parkinsons".toList "parkinson".toList _ s2 (by decide)
      have s4 := hrep "alzheimer\x27s".toList "alzheimer".toList _ s3 (by decide)
      have s5 := hrep "alzheimers".toList "alzheimer".toList _ s4 (by decide)
      have s6 := hrep "\x27s".toList "s".toList _ s5 (by decide)
      have s7 := hrep "\x27".toList [] _ s6 (by decide)
      exact s7 c h3
    · decide

/-! ## Helper lemmas: whitespace structure of normalized text -/

theorem noAdjWs_cons_inv (a : Char) (l : Str) (h : noAdjWs (a :: l) = true) :
    noAdjWs l = true := by
  cases l with
  | nil => rfl
  | cons b r =>
    unfold noAdjWs at h
    exact (Bool.and_eq_true_iff.1 h).2

theorem noAdjWs_cons_of (c : Char) (l : Str) (h1 : noAdjWs l = true)
    (h2 : ∀ e, l.head? = some e → (c.isWhitespace && e.isWhitespace) = false) :
    noAdjWs (c :: l) = true := by
  cases l with
  | nil => rfl
  | cons b r =>
    unfold noAdjWs
    rw [Bool.and_eq_true_iff]
    exact ⟨by rw [Bool.not_eq_true']; exact h2 b rfl, h1⟩

theorem collapseWs_cons_not_ws (d : Char) (ds : Str) (h : d.isWhitespace = false) :
    collapseWs (d :: ds) = d :: collapseWs ds := by
  conv_lhs => unfold collapseWs
  rw [if_neg (by simp [h])]

theorem noAdjWs_collapseWs (s : Str) : noAdjWs (collapseWs s) = true := by
  induction s with
  | nil => rfl
  | cons a t ih =>
    unfold collapseWs
    by_cases hw : a.isWhitespace
    · rw [if_pos hw]
      cases t with
      | nil => rfl
      | cons d ds =>
        dsimp only
        by_cases hd : d.isWhitespace
        · rw [if_pos hd]
          exact ih
        · rw [if_neg hd]
          refine noAdjWs_cons_of _ _ ih ?_
          intro e he
          rw [collapseWs_cons_not_ws d ds (by simpa using hd)] at he
          simp only [List.head?_cons, Option.some.injEq] at he
          rw [← he]
          simp [hd]
    · rw [if_neg hw]
      refine noAdjWs_cons_of _ _ ih ?_
      intro e _
      simp [hw]

theorem rstrip_head (a : Char) (t : Str) :
    rstrip (a :: t) = [] ∨ ∃ r, rstrip (a :: t) = a :: r := by
  unfold rstrip
  dsimp only
  by_cases hr : rstrip t = []
  · rw [if_pos hr]
    by_cases hw : a.isWhitespace
    · rw [if_pos hw]
      exact Or.inl rfl
    · rw [if_neg hw]
      exact Or.inr ⟨[], rfl⟩
  · rw [if_neg hr]
    exact Or.inr ⟨rstrip t, rfl⟩

theorem noAdjWs_rstrip (s : Str) (h : noAdjWs s = true) : noAdjWs (rstrip s) = true := by
  induction s with
  | nil => rfl
  | cons a t ih =>
    unfold rstrip
    dsimp only
    by_cases hr : rstrip t = []
    · rw [if_pos hr]
      by_cases hw : a.isWhitespace
      · rw [if_pos hw]; rfl
      · rw [if_neg hw]; rfl
    · rw [if_neg hr]
      refine noAdjWs_cons_of _ _ (ih (noAdjWs_cons_inv a t h)) ?_
      intro e he
      cases t with
      | nil => exact absurd rfl hr
      | cons b r =>
        rcases rstrip_head b r with hnil | ⟨r2, hr2⟩
        · exact absurd hnil hr
        · rw [hr2] at he
          simp only [List.head?_cons, Option.some.injEq] at he
          rw [← he]
          unfold noAdjWs at h
          rw [Bool.and_eq_true_iff] at h
          rw [Bool.not_eq_true'] at h
          exact h.1

theorem noAdjWs_lstrip (s : Str) (h : noAdjWs s = true) : noAdjWs (lstrip s) = true := by
  induction s with
  | nil => rfl
  | cons a t ih =>
    by_cases hw : a.isWhitespace
    · rw [lstrip, List.dropWhile_cons_of_pos (by simpa using hw)]
      simpa [lstrip] using ih (noAdjWs_cons_inv a t h)
    · rw [lstrip, List.dropWhile_cons_of_neg (by simpa using hw)]
      exact h

theorem noAdjWs_pstrip (s : Str) (h : noAdjWs s = true) : noAdjWs (pstrip s) = true :=
  noAdjWs_rstrip _ (noAdjWs_lstrip s h)

/-! ## Helper lemmas: strip and collapse as no-ops on canonical text -/

theorem lstrip_of_head_not_ws (s : Str)
    (h : ∀ c t, s = c :: t → c.isWhitespace = false) : lstrip s = s := by
  cases s with
  | nil => rfl
  | cons a t =>
    rw [lstrip, List.dropWhile_cons_of_neg (by simp [h a t rfl])]

theorem rstrip_of_last_not_ws (s : Str)
    (h : ∀ c t, s = t ++ [c] → c.isWhitespace = false) : rstrip s = s := by
  induction s with
  | nil => rfl
  | cons a t ih =>
    cases t with
    | nil =>
      have ha := h a [] rfl
      unfold rstrip
      simp [rstrip, ha]
    | cons b r =>
      have ht : rstrip (b :: r) = b :: r := by
        refine ih ?_
        intro c t2 he
        exact h c (a :: t2) (by rw [he]; rfl)
      unfold rstrip
      dsimp only
      rw [if_neg (by rw [ht]; simp)]
      rw [ht]

theorem rstrip_last_not_ws (s : Str) :
    ∀ c t, rstrip s = t ++ [c] → c.isWhitespace = false := by
  induction s with
  | nil => intro c t h; simp [rstrip] at h
  | cons a r ih =>
    intro c t h
    unfold rstrip at h
    dsimp only at h
    by_cases hr : rstrip r = []
    · rw [if_pos hr] at h
      by_cases hw : a.isWhitespace
      · rw [if_pos hw] at h
        exact absurd h (by simp)
      · rw [if_neg hw] at h
        cases t with
        | nil =>
          simp only [List.nil_append] at h
          rcases List.cons.inj h with ⟨rfl, -⟩
          simpa using hw
        | cons x xs =>
          have hlen := congrArg List.length h
          simp at hlen
    · rw [if_neg hr] at h
      cases t with
      | nil =>
        simp only [List.nil_append] at h
        rcases List.cons.inj h with ⟨rfl, h2⟩
        exact absurd h2 hr
      | cons x xs =>
        rw [List.cons_append] at h
        rcases List.cons.inj h with ⟨rfl, h2⟩
        exact ih c xs h2

theorem lstrip_head_not_ws (s : Str) :
    ∀ c t, lstrip s = c :: t → c.isWhitespace = false := by
  induction s with
  | nil => intro c t h; simp [lstrip] at h
  | cons a r ih =>
    intro c t h
    by_cases hw : a.isWhitespace
    · rw [lstrip, List.dropWhile_cons_of_pos (by simpa using hw)] at h
      exact ih c t h
    · rw [lstrip, List.dropWhile_cons_of_neg (by simpa using hw)] at h
      rcases List.cons.inj h with ⟨rfl, rfl⟩
      simpa using hw

theorem rstrip_preserves_head (s : Str) (c : Char) (t : Str)
    (h : rstrip s = c :: t) : ∃ r, s = c :: r := by
  cases s with
  | nil => simp [rstrip] at h
  | cons a r =>
    rcases rstrip_head a r with hnil | ⟨r2, hr2⟩
    · rw [hnil] at h
      exact absurd h (by simp)
    · rw [hr2] at h
      rcases List.cons.inj h with ⟨rfl, -⟩
      exact ⟨r, rfl⟩

theorem pstrip_pstrip (s : Str) : pstrip (pstrip s) = pstrip s := by
  have h1 : lstrip (pstrip s) = pstrip s := by
    refine lstrip_of_head_not_ws _ ?_
    intro c t h
    rcases rstrip_preserves_head (lstrip s) c t h with ⟨r, hr⟩
    exact lstrip_head_not_ws s c r hr
  unfold pstrip
  rw [show lstrip (rstrip (lstrip s)) = rstrip (lstrip s) from h1]
  refine rstrip_of_last_not_ws _ ?_
  intro c t h
  exact rstrip_last_not_ws (lstrip s) c t h

theorem map_lowerChar_id (s : Str) (h : ∀ c ∈ s, lowerFixed c) :
    s.map lowerChar = s := by
  induction s with
  | nil => rfl
  | cons a t ih =>
    rw [List.map_cons, lowerChar_fixed a (h a (List.mem_cons_self _ _)),
      ih (fun c hc => h c (List.mem_cons_of_mem _ hc))]

theorem punctSub_id (s : Str)
    (h : ∀ c ∈ s, isWordChar c = true ∨ c.isWhitespace = true) : punctSub s = s := by
  induction s with
  | nil => rfl
  | cons a t ih =>
    unfold punctSub
    rw [List.map_cons]
    have ha : (if isWordChar a || a.isWhitespace then a else ' ') = a := by
      rcases h a (List.mem_cons_self _ _) with h1 | h2
      · rw [if_pos (by simp [h1])]
      · rw [if_pos (by simp [h2])]
    rw [ha]
    have := ih (fun c hc => h c (List.mem_cons_of_mem _ hc))
    unfold punctSub at this
    rw [this]

theorem collapseWs_id (s : Str) (hadj : noAdjWs s = true)
    (hsp : ∀ c ∈ s, c.isWhitespace = true → c = ' ') : collapseWs s = s := by
  induction s with
  | nil => rfl
  | cons a t ih =>
    by_cases hw : a.isWhitespace
    · have ha : a = ' ' := hsp a (List.mem_cons_self _ _) hw
      cases t with
      | nil =>
        unfold collapseWs
        rw [if_pos hw, ha]
      | cons d ds =>
        have hd : d.isWhitespace = false := by
          unfold noAdjWs at hadj
          rw [Bool.and_eq_true_iff, Bool.not_eq_true'] at hadj
          rcases Bool.and_eq_false_iff.1 hadj.1 with h1 | h2
          · exact absurd hw (by simp [h1])
          · exact h2
        unfold collapseWs
        rw [if_pos hw]
        dsimp only
        rw [if_neg (by simp [hd])]
        rw [← ha, ih (noAdjWs_cons_inv a _ hadj)
          (fun c hc hcw => hsp c (List.mem_cons_of_mem _ hc) hcw)]
    · rw [collapseWs_cons_not_ws a t (by simpa using hw)]
      rw [ih (noAdjWs_cons_inv a _ hadj)
        (fun c hc hcw => hsp c (List.mem_cons_of_mem _ hc) hcw)]

theorem occursIn_chars (pat : Str) : ∀ (s : Str), occursIn pat s = true →
    ∀ c ∈ pat, c ∈ s := by
  intro s
  induction s with
  | nil =>
    intro h c hc
    unfold occursIn at h
    rw [List.isEmpty_iff] at h
    rw [h] at hc
    exact absurd hc (by simp)
  | cons a t ih =>
    intro h c hc
    unfold occursIn at h
    rw [Bool.or_eq_true] at h
    rcases h with h1 | h2
    · rw [decide_eq_true_eq] at h1
      rw [← h1] at hc
      exact List.mem_of_mem_take hc
    · exact List.mem_cons_of_mem _ (ih h2 c hc)

theorem pyReplaceFuel_id (pat rep : Str) : ∀ (n : Nat) (s : Str),
    occursIn pat s = false → pyReplaceFuel pat rep n s = s := by
  intro n
  induction n with
  | zero => intro s _; rfl
  | succ m ih =>
    intro s h
    cases s with
    | nil => rfl
    | cons a t =>
      unfold occursIn at h
      rw [Bool.or_eq_false_iff] at h
      unfold pyReplaceFuel
      rw [if_neg (by simp [decide_eq_false_iff_not.1 h.1])]
      rw [ih t h.2]

theorem pyReplace_id (pat rep s : Str) (h : occursIn pat s = false) :
    pyReplace pat rep s = s :=
  pyReplaceFuel_id pat rep s.length s h

theorem pyReplace_id_of_missing_char (pat rep s : Str) (c : Char)
    (hc : c ∈ pat) (hs : c ∉ s) : pyReplace pat rep s = s := by
  refine pyReplace_id pat rep s ?_
  cases ho : occursIn pat s with
  | false => rfl
  | true => exact absurd (occursIn_chars pat s ho c hc) hs

theorem normalize_noAdjWs (t : Str) : noAdjWs (normalize_text t) = true := by
  unfold normalize_text
  dsimp only
  exact noAdjWs_pstrip _ (noAdjWs_collapseWs _)

theorem normalize_pstrip (t : Str) : pstrip (normalize_text t) = normalize_text t := by
  unfold normalize_text
  dsimp only
  exact pstrip_pstrip _

theorem normalize_text_fixed (t : Str)
    (h1 : occursIn "parkinsons".toList (normalize_text t) = false)
    (h2 : occursIn "alzheimers".toList (normalize_text t) = false) :
    normalize_text (normalize_text t) = normalize_text t := by
  have hw := normalize_chars_word_or_space t
  have hlf := normalize_chars_lowerFixed t
  have hadj := normalize_noAdjWs t
  have hap : ('\x27' : Char) ∉ normalize_text t := by
    intro hmem
    rcases hw _ hmem with h3 | h3
    · exact absurd h3 (by decide)
    · exact absurd h3 (by decide)
  have e1 : (normalize_text t).map lowerChar = normalize_text t :=
    map_lowerChar_id _ hlf
  have e2 : pstrip (normalize_text t) = normalize_text t := normalize_pstrip t
  have e3 := pyReplace_id_of_missing_char "parkinson\x27s".toList "parkinson".toList
    (normalize_text t) '\x27' (by decide) hap
  have e4 := pyReplace_id "parkinsons".toList "parkinson".toList (normalize_text t) h1
  have e5 := pyReplace_id_of_missing_char "alzheimer\x27s".toList "alzheimer".toList
    (normalize_text t) '\x27' (by decide) hap
  have e6 := pyReplace_id "alzheimers".toList "alzheimer".toList (normalize_text t) h2
  have e7 := pyReplace_id_of_missing_char "\x27s".toList "s".toList
    (normalize_text t) '\x27' (by decide) hap
  have e8 := pyReplace_id_of_missing_char "\x27".toList []
    (normalize_text t) '\x27' (by decide) hap
  have e9 : punctSub (normalize_text t) = normalize_text t := by
    refine punctSub_id _ ?_
    intro c hc
    rcases hw c hc with h3 | rfl
    · exact Or.inl h3
    · right
      decide
  have e10 : collapseWs (normalize_text t) = normalize_text t := by
    refine collapseWs_id _ hadj ?_
    intro c hc hcw
    rcases hw c hc with h3 | rfl
    · exact absurd (word_not_ws c h3) (by simp [hcw])
    · rfl
  set y := normalize_text t with hy
  rw [show normalize_text y = pstrip (collapseWs (punctSub (pyReplace "\x27".toList []
    (pyReplace "\x27s".toList "s".toList (pyReplace "alzheimers".toList "alzheimer".toList
    (pyReplace "alzheimer\x27s".toList "alzheimer".toList
    (pyReplace "parkinsons".toList "parkinson".toList
    (pyReplace "parkinson\x27s".toList "parkinson".toList
    (pstrip (y.map lowerChar)))))))))) from rfl]
  rw [e1, e2, e3, e4, e5, e6, e7, e8, e9, e10]
  exact e2

/-! ## Claim theorems -/

/-- C1 counterexample: the cheap rejection test is not an equivalent
optimization.  For the query "diabetes care" and a single cluster whose
only keyword is "diabetes mellitus", the quick check skips the cluster
(no word/phrase intersection and no substring match in either
direction), yet the exhaustive tiered scoring gives the cluster the
positive word-overlap score 1, so the two outputs differ. -/
theorem quick_check_vs_exhaustive_counterexample :
    score_clusters_by_query (buildClusterLookup [(0, ["diabetes mellitus".toList])])
        "diabetes care".toList = [] ∧
      exhaustiveTieredScores (buildClusterLookup [(0, ["diabetes mellitus".toList])])
        "diabetes care".toList =
        [⟨0, 1, [("diabetes mellitus".toList, 1)]⟩] ∧
      ([] : List ClusterScore) ≠ [⟨0, 1, [("diabetes mellitus".toList, 1)]⟩] := by
  refine ⟨by decide, by decide, by decide⟩

/-- C1: amended.  The cheap rejection test in `score_clusters_by_query`
guarantees only that the skipped cluster has no exact-match and no
substring tier contribution for any of its keywords (its full tiered
score could come only from the word-overlap tier, which can still be
positive, so the quick-check-enabled function need not return the same
output as exhaustively applying the tiered scoring to every cluster). -/
theorem quick_rejection_excludes_exact_and_substring_tiers
    (qn : Str) (qws : List Str) (cd : ClusterData)
    (h : quickReject qn qws cd = true) :
    ∀ kw ∈ cd.normalized_keywords,
      qn ≠ kw ∧ occursIn qn kw = false ∧ occursIn kw qn = false :=
  (quickReject_facts qn qws cd h).1

/-- C1 witness: the amended theorem applied to the counterexample
cluster. -/
theorem quick_rejection_excludes_tiers_witness :
    "diabetes care".toList ≠ "diabetes mellitus".toList ∧
      occursIn "diabetes care".toList "diabetes mellitus".toList = false ∧
      occursIn "diabetes mellitus".toList "diabetes care".toList = false :=
  quick_rejection_excludes_exact_and_substring_tiers "diabetes care".toList
    ["diabetes".toList, "care".toList]
    ⟨["diabetes mellitus".toList], ["diabetes mellitus".toList]⟩
    (by decide) "diabetes mellitus".toList (by decide)

/-- C2 counterexample: `normalize_text` is not idempotent.  On
"parkinsonss", the single-pass replacement of "parkinsons" by
"parkinson" produces "parkinsons", which a second pass rewrites again
to "parkinson". -/
theorem normalize_not_idempotent_counterexample :
    normalize_text "parkinsonss".toList = "parkinsons".toList ∧
      normalize_text (normalize_text "parkinsonss".toList) = "parkinson".toList ∧
      normalize_text (normalize_text "parkinsonss".toList) ≠
        normalize_text "parkinsonss".toList := by
  refine ⟨by decide, by decide, by decide⟩

/-- C2: amended.  `normalize_text` is idempotent on every input whose
normalized output does not contain "parkinsons" or "alzheimers" as a
substring; single-pass replacement (and apostrophe removal) can create
such outputs, which a second pass rewrites. -/
theorem normalize_idempotent_amended (x : Str)
    (h1 : occursIn "parkinsons".toList (normalize_text x) = false)
    (h2 : occursIn "alzheimers".toList (normalize_text x) = false) :
    normalize_text (normalize_text x) = normalize_text x :=
  normalize_text_fixed x h1 h2

/-- C2 witness: idempotence at "Parkinson's Disease". -/
theorem normalize_idempotent_amended_witness :
    normalize_text (normalize_text "Parkinson\x27s Disease".toList) =
      normalize_text "Parkinson\x27s Disease".toList :=
  normalize_idempotent_amended "Parkinson\x27s Disease".toList (by decide) (by decide)

/-- C3 counterexample: there is no fixed-increment long-word tier.  For
normalized query "abcd efgh" and keyword "xabcdx", no exact, substring
or word-overlap tier applies, and there is exactly one pair of a query
word and a keyword word (both longer than 3 characters) where one
contains the other — the claim predicts an increment of 1, but the
per-keyword score in `score_clusters_by_query` is 0. -/
theorem long_word_tier_counterexample :
    ("abcd efgh".toList ≠ "xabcdx".toList ∧
      occursIn "abcd efgh".toList "xabcdx".toList = false ∧
      occursIn "xabcdx".toList "abcd efgh".toList = false ∧
      ((splitWords "abcd efgh".toList).dedup.filter
        (fun w => w ∈ (splitWords "xabcdx".toList).dedup)) = []) ∧
    (((splitWords "abcd efgh".toList).dedup.map
      (fun qw => (((splitWords "xabcdx".toList).dedup.filter
        (fun kw => decide (3 < qw.length) && decide (3 < kw.length) &&
          (occursIn qw kw || occursIn kw qw))).length))).sum = 1) ∧
    scoreKeyword "abcd efgh".toList (splitWords "abcd efgh".toList).dedup
      "xabcdx".toList "xabcdx".toList = (0, []) := by
  refine ⟨by decide, by decide, by decide⟩

/-- C3: amended.  In `score_clusters_by_query`, when none of the
exact-match, substring, or word-set-overlap tiers applies to a keyword,
the keyword contributes exactly 0 to the cluster score and nothing to
the matched-keyword list: the code has no further long-word containment
tier. -/
theorem no_tier_keyword_contributes_zero (qn : Str) (qws : List Str)
    (kwRaw kwNorm : Str) (h1 : qn ≠ kwNorm) (h2 : occursIn qn kwNorm = false)
    (h3 : occursIn kwNorm qn = false)
    (h4 : qws.filter (fun w => w ∈ (splitWords kwNorm).dedup) = []) :
    scoreKeyword qn qws kwRaw kwNorm = (0, []) :=
  scoreKeyword_no_tier qn qws kwRaw kwNorm h1 h2 h3 h4

/-- C3 witness: the amended theorem at the counterexample input. -/
theorem no_tier_keyword_contributes_zero_witness :
    scoreKeyword "abcd efgh".toList (splitWords "abcd efgh".toList).dedup
      "xabcdx".toList "xabcdx".toList = (0, []) :=
  no_tier_keyword_contributes_zero "abcd efgh".toList
    (splitWords "abcd efgh".toList).dedup "xabcdx".toList "xabcdx".toList
    (by decide) (by decide) (by decide) (by decide)

/-- C4 counterexample: ties are not broken by ascending cluster id.
With clusters 5 and 2 (in that catalogue order) both scoring 10 for the
query "zebra", the returned order is [5, 2]: Python's stable sort keeps
catalogue order on ties, so equal-score entries are not in ascending
cluster-id order. -/
theorem score_clusters_tie_order_counterexample :
    score_clusters_by_query
        (buildClusterLookup [(5, ["zebra".toList]), (2, ["zebra".toList])])
        "zebra".toList =
      [⟨5, 10, [("zebra".toList, 10)]⟩, ⟨2, 10, [("zebra".toList, 10)]⟩] ∧
    ¬ (score_clusters_by_query
        (buildClusterLookup [(5, ["zebra".toList]), (2, ["zebra".toList])])
        "zebra".toList).Pairwise
        (fun a b => b.score < a.score ∨ (a.score = b.score ∧ a.cid < b.cid)) := by
  refine ⟨by decide, by decide⟩

/-- C4: amended.  The list returned by `score_clusters_by_query` is
sorted by score descending; entries with equal score appear in the
order in which their clusters survive the scoring loop (the catalogue
iteration order — Python's stable sort on insertion order), not in
ascending cluster-id order. -/
theorem score_clusters_sorted_desc_stable (lookup : List (Int × ClusterData))
    (q : Str) :
    (score_clusters_by_query lookup q).Pairwise (fun a b => b.score ≤ a.score) ∧
    ∀ s : ℚ, (score_clusters_by_query lookup q).filter (fun e => decide (e.score = s)) =
      (scoreLoop (normalize_text q) ((splitWords (normalize_text q)).dedup)
        lookup).filter (fun e => decide (e.score = s)) := by
  unfold score_clusters_by_query
  dsimp only
  exact sortDescBy_spec (fun e : ClusterScore => e.score) _

/-- C5 counterexample: an empty query is not signaled through the
invalid-query flag.  `search_specialists` returns an HTTP 400 error
payload with `success: false` and no `invalid_query: true` flag. -/
theorem empty_query_not_flagged_counterexample :
    search_specialists (some []) [] [] [] [] 20 = ⟨400, false, false, none, []⟩ ∧
      (search_specialists (some []) [] [] [] [] 20).invalid_query = false := by
  refine ⟨by decide, by decide⟩

/-- C5: amended.  For every nonempty query rejected by the validator
gate, the search endpoint returns the normal (HTTP 200, success) outcome
with `invalid_query: true` and an empty result list — it never throws
(the model is a total function).  An empty query instead takes the
earlier HTTP 400 error branch. -/
theorem invalid_nonempty_query_flagged (catalog : Option (List Specialist))
    (lookup : List (Int × ClusterData)) (tk : TopicKeywords)
    (rawQuery rawLoc : Str) (lim : Nat)
    (h1 : pstrip rawQuery ≠ [])
    (h2 : is_valid_medical_query (pstrip rawQuery) = false) :
    search_specialists catalog lookup tk rawQuery rawLoc lim =
      ⟨200, true, true, some 0, []⟩ := by
  unfold search_specialists
  dsimp only
  rw [if_neg h1, if_pos (by simp [h2])]

/-- C5 witness: `search("xyzzyqqq", null, 20)` yields
`invalid_query = true` with an empty result list. -/
theorem invalid_nonempty_query_flagged_witness :
    search_specialists (some []) [] [] "xyzzyqqq".toList [] 20 =
      ⟨200, true, true, some 0, []⟩ :=
  invalid_nonempty_query_flagged (some []) [] [] "xyzzyqqq".toList [] 20
    (by decide) (by decide)

seal normalize_text in
theorem fast_path_empty_of_no_matching (df : List Specialist)
    (lookup : List (Int × ClusterData)) (q loc : Str) (mr : Nat)
    (h : (lookup.filter (fun p => normalize_text q ∈ p.2.normalized_keywords)).map
      (fun p => p.1) = []) : fast_path df lookup q loc mr = [] := by
  unfold fast_path
  dsimp only
  rw [if_pos h]

seal normalize_text in
theorem filter_eq_full_of_not_simple (df : List Specialist)
    (lookup : List (Int × ClusterData)) (tk : TopicKeywords) (q loc : Str) (mr : Nat)
    (h : is_simple_query q = false) :
    filter_specialists df lookup tk q loc mr = full_path df lookup tk q loc mr := by
  unfold filter_specialists
  rw [if_neg (by simp [h])]

seal normalize_text in
theorem filter_eq_full_of_fast_empty (df : List Specialist)
    (lookup : List (Int × ClusterData)) (tk : TopicKeywords) (q loc : Str) (mr : Nat)
    (h : fast_path df lookup q loc mr = []) :
    filter_specialists df lookup tk q loc mr = full_path df lookup tk q loc mr := by
  unfold filter_specialists
  by_cases hb : (is_simple_query q && !lookup.isEmpty) = true
  · rw [if_pos hb]
    dsimp only
    rw [h, if_neg (by simp)]
  · rw [if_neg hb]

seal normalize_text in
theorem fast_path_nil_lookup (df : List Specialist) (q loc : Str) (mr : Nat) :
    fast_path df [] q loc mr = [] := by
  unfold fast_path
  dsimp only
  rw [if_pos (by simp)]

seal normalize_text in
theorem filter_eq_fast_of_simple_nonempty (df : List Specialist)
    (lookup : List (Int × ClusterData)) (tk : TopicKeywords) (q loc : Str) (mr : Nat)
    (hs : is_simple_query q = true) (hne : fast_path df lookup q loc mr ≠ []) :
    filter_specialists df lookup tk q loc mr = fast_path df lookup q loc mr := by
  have hlk : lookup ≠ [] := by
    intro hl
    rw [hl] at hne
    exact hne (fast_path_nil_lookup df q loc mr)
  unfold filter_specialists
  rw [if_pos (by simp [hs, List.isEmpty_iff, hlk])]
  dsimp only
  rw [if_pos hne]

/-- C7: a query is eligible for the fast path exactly when its
normalized form has at most 2 words, each longer than 2 characters
(first conjunct, the gate `is_simple_query`); every fast-path result
comes from a record whose `topic_cluster` is in the set of clusters
whose normalized keyword set contains the normalized query exactly
(second conjunct); when the query is not simple the full path runs;
when no cluster's keyword set contains the normalized query the fast
path yields no candidates and `filter_specialists` runs the full path
instead; and a simple query with nonempty fast-path results returns
exactly those results. -/
theorem fast_path_gate_and_membership (df : List Specialist)
    (lookup : List (Int × ClusterData)) (tk : TopicKeywords) (q loc : Str) (mr : Nat) :
    (is_simple_query q = ((splitWords (normalize_text q)).length ≤ 2 &&
        (splitWords (normalize_text q)).all (fun w => 2 < w.length))) ∧
    (∀ r ∈ fast_path df lookup q loc mr,
      r.topic_cluster ∈ (lookup.filter (fun p =>
        normalize_text q ∈ p.2.normalized_keywords)).map (fun p => p.1)) ∧
    (is_simple_query q = false →
      filter_specialists df lookup tk q loc mr = full_path df lookup tk q loc mr) ∧
    ((lookup.filter (fun p => normalize_text q ∈ p.2.normalized_keywords)).map
        (fun p => p.1) = [] →
      fast_path df lookup q loc mr = [] ∧
        filter_specialists df lookup tk q loc mr = full_path df lookup tk q loc mr) ∧
    (is_simple_query q = true → fast_path df lookup q loc mr ≠ [] →
      filter_specialists df lookup tk q loc mr = fast_path df lookup q loc mr) := by
  refine ⟨rfl, fun r hr => fast_path_mem_inv df lookup q loc mr r hr,
    filter_eq_full_of_not_simple df lookup tk q loc mr, ?_,
    filter_eq_fast_of_simple_nonempty df lookup tk q loc mr⟩
  intro h
  have hfp := fast_path_empty_of_no_matching df lookup q loc mr h
  exact ⟨hfp, filter_eq_full_of_fast_empty df lookup tk q loc mr hfp⟩

/-- C7 witness: for the simple query "flu" on a one-record catalogue
whose single cluster has keyword "flu", the fast path is taken and its
results are returned. -/
theorem fast_path_gate_and_membership_witness :
    filter_specialists [⟨0, 0, some 2, 0, "flu".toList, [], [], [], "texas".toList, []⟩]
        (buildClusterLookup [(0, ["flu".toList])]) [(0, ["flu".toList])]
        "flu".toList [] 20 =
      fast_path [⟨0, 0, some 2, 0, "flu".toList, [], [], [], "texas".toList, []⟩]
        (buildClusterLookup [(0, ["flu".toList])]) "flu".toList [] 20 :=
  (fast_path_gate_and_membership
      [⟨0, 0, some 2, 0, "flu".toList, [], [], [], "texas".toList, []⟩]
      (buildClusterLookup [(0, ["flu".toList])]) [(0, ["flu".toList])]
      "flu".toList [] 20).2.2.2.2 (by decide) (by decide)

/-- C8: every entry returned by `score_clusters_by_query` over a built
cluster lookup has a strictly positive score (clusters with cumulative
score 0 are dropped, so no score is negative) and a cluster id distinct
from the outlier sentinel -1 (excluded when the lookup is built). -/
theorem score_clusters_positive_and_no_outlier (tk : TopicKeywords) (q : Str)
    (e : ClusterScore) (he : e ∈ score_clusters_by_query (buildClusterLookup tk) q) :
    0 < e.score ∧ e.cid ≠ -1 := by
  unfold score_clusters_by_query at he
  dsimp only at he
  have h2 := (mem_sortDescBy _ _ e).1 he
  rcases scoreLoop_mem _ _ _ e h2 with ⟨hpos, cd, hmem⟩
  exact ⟨(qlt_iff 0 e.score).1 hpos, buildClusterLookup_mem tk e.cid cd hmem⟩

/-- C8 witness: the theorem applied to the single entry returned for
the query "flu" on a catalogue with one cluster. -/
theorem score_clusters_positive_and_no_outlier_witness :
    0 < (⟨0, 10, [("flu".toList, 10)]⟩ : ClusterScore).score ∧
      (⟨0, 10, [("flu".toList, 10)]⟩ : ClusterScore).cid ≠ -1 :=
  score_clusters_positive_and_no_outlier [(0, ["flu".toList])] "flu".toList
    ⟨0, 10, [("flu".toList, 10)]⟩ (by decide)

/-- C6 counterexample: with twelve top clusters, the cluster weight
`1 - rank * 0.1` is not floored at 0: the keyword of the cluster at
rank 11 receives the negative weight -1/100, so `get_weighted_keywords`
can return negative values. -/
theorem weighted_keywords_negative_counterexample :
    (get_weighted_keywords
        [⟨0, 1, []⟩, ⟨1, 1, []⟩, ⟨2, 1, []⟩, ⟨3, 1, []⟩, ⟨4, 1, []⟩, ⟨5, 1, []⟩,
         ⟨6, 1, []⟩, ⟨7, 1, []⟩, ⟨8, 1, []⟩, ⟨9, 1, []⟩, ⟨10, 1, []⟩, ⟨11, 1, []⟩]
        [(0, ["aaaa".toList]), (1, ["bbbb".toList]), (2, ["cccc".toList]),
         (3, ["dddd".toList]), (4, ["eeee".toList]), (5, ["ffff".toList]),
         (6, ["gggg".toList]), (7, ["hhhh".toList]), (8, ["iiii".toList]),
         (9, ["jjjj".toList]), (10, ["kkkk".toList]), (11, ["llll".toList])]
        "qqqq".toList).find? (fun p => p.1 = "llll".toList) =
      some ("llll".toList, mkRat (-1) 100) ∧
    (get_weighted_keywords
        [⟨0, 1, []⟩, ⟨1, 1, []⟩, ⟨2, 1, []⟩, ⟨3, 1, []⟩, ⟨4, 1, []⟩, ⟨5, 1, []⟩,
         ⟨6, 1, []⟩, ⟨7, 1, []⟩, ⟨8, 1, []⟩, ⟨9, 1, []⟩, ⟨10, 1, []⟩, ⟨11, 1, []⟩]
        [(0, ["aaaa".toList]), (1, ["bbbb".toList]), (2, ["cccc".toList]),
         (3, ["dddd".toList]), (4, ["eeee".toList]), (5, ["ffff".toList]),
         (6, ["gggg".toList]), (7, ["hhhh".toList]), (8, ["iiii".toList]),
         (9, ["jjjj".toList]), (10, ["kkkk".toList]), (11, ["llll".toList])]
        "qqqq".toList).any (fun p => qlt p.2 0) = true := by
  refine ⟨by decide, by decide⟩

/-- C6: amended.  Every value in the map returned by
`get_weighted_keywords` is nonnegative whenever `topClusters` has at
most 11 entries (every rank is then at most 10, where the unfloored
cluster weight `1 - rank * 0.1` is still nonnegative); with 12 or more
clusters the weight goes negative, since the code has no floor. -/
theorem weighted_keywords_nonneg_for_top_eleven (top_clusters : List ClusterScore)
    (tk : TopicKeywords) (q : Str) (h : top_clusters.length ≤ 11) :
    ∀ p ∈ get_weighted_keywords top_clusters tk q, 0 ≤ p.2 := by
  intro p hp
  unfold get_weighted_keywords at hp
  dsimp only at hp
  exact gwkLoop_nonneg tk _ _ top_clusters 0 [] (by omega) (by simp) p hp

/-- C6 witness: the amended theorem at a one-cluster instance. -/
theorem weighted_keywords_nonneg_witness :
    (0 : ℚ) ≤ (("flu".toList, (1 : ℚ))).2 :=
  weighted_keywords_nonneg_for_top_eleven [⟨0, 1, []⟩] [(0, ["flu".toList])]
    "flu".toList (by decide) ("flu".toList, 1) (by decide)

/-- C9: the search pipeline is deterministic and the bounded
normalization cache is transparent.  Running the cache-threaded
`filter_specialists` from any two consistent cache states (the
invariant the program maintains, since only `normalize_text` inserts
entries) yields identical ordered result lists; the cached
normalization always returns the pure `normalize_text` value; and the
consistency invariant is preserved, so two invocations in sequence (the
second starting from the cache the first left behind) agree as well. -/
theorem search_deterministic_and_cache_transparent (df : List Specialist)
    (lookup : List (Int × ClusterData)) (tk : TopicKeywords) (q loc : Str)
    (mr : Nat) (c₁ c₂ : NormCache) (t : Str)
    (h₁ : CacheOk c₁) (h₂ : CacheOk c₂) :
    (filter_specialistsC c₁ df lookup tk q loc mr).1 =
        (filter_specialistsC c₂ df lookup tk q loc mr).1 ∧
      (normalizeC c₁ t).1 = normalize_text t ∧
      CacheOk (filter_specialistsC c₁ df lookup tk q loc mr).2 := by
  refine ⟨?_, normalizeC_fst c₁ t h₁,
    (filter_specialistsC_spec c₁ df lookup tk q loc mr h₁).2⟩
  rw [(filter_specialistsC_spec c₁ df lookup tk q loc mr h₁).1,
    (filter_specialistsC_spec c₂ df lookup tk q loc mr h₂).1]

/-- C9 witness: identical results from the empty cache and from a
nonempty consistent cache. -/
theorem search_deterministic_witness :
    (filter_specialistsC []
        [⟨0, 0, some 2, 0, "flu".toList, [], [], [], "texas".toList, []⟩]
        (buildClusterLookup [(0, ["flu".toList])]) [(0, ["flu".toList])]
        "flu".toList [] 20).1 =
      (filter_specialistsC [("Flu".toList, "flu".toList)]
        [⟨0, 0, some 2, 0, "flu".toList, [], [], [], "texas".toList, []⟩]
        (buildClusterLookup [(0, ["flu".toList])]) [(0, ["flu".toList])]
        "flu".toList [] 20).1 :=
  (search_deterministic_and_cache_transparent
    [⟨0, 0, some 2, 0, "flu".toList, [], [], [], "texas".toList, []⟩]
    (buildClusterLookup [(0, ["flu".toList])]) [(0, ["flu".toList])]
    "flu".toList [] 20 [] [("Flu".toList, "flu".toList)] "x".toList
    (fun p hp => absurd hp (List.not_mem_nil p))
    (by
      intro p hp
      rcases List.mem_singleton.1 hp with rfl
      decide)).1

/-- C10: every record scored by the full path either lies in one of the
top-3 scored clusters or carries a relevancy score of at least 1; in
particular a record whose `topic_cluster` is not among the top-scored
clusters and whose `relevancy_score` is below 1.0 is skipped by the
`score < 0.5` check before any field-level keyword scoring, and never
appears in full-path results. -/
theorem full_path_requires_cluster_or_relevancy (df : List Specialist)
    (lookup : List (Int × ClusterData)) (tk : TopicKeywords) (q loc : Str)
    (mr : Nat) (r : SearchResult) (hr : r ∈ full_path df lookup tk q loc mr) :
    ∃ p : Specialist × ℚ, p ∈ full_path_scores df lookup tk q loc mr ∧
      r = format_specialist_result p.1 p.2 ∧
      (p.1.topic_cluster ∈
          ((score_clusters_by_query lookup q).take 3).map (fun c => c.cid) ∨
        ∃ rv, p.1.relevancy_score = some rv ∧ 1 ≤ rv) := by
  rcases full_path_mem_inv df lookup tk q loc mr r hr with ⟨p, hp, he⟩
  have hrs := full_path_scores_mem_inv df lookup tk q loc mr p hp
  exact ⟨p, hp, he, recordScore_some_inv _ _ _ _ hrs⟩

/-- C10 witness: the theorem applied to the single full-path result of
a one-record catalogue. -/
theorem full_path_requires_cluster_or_relevancy_witness :
    ∃ p : Specialist × ℚ,
      p ∈ full_path_scores
          [⟨0, 0, some 2, 0, "flu".toList, [], [], [], "texas".toList, []⟩]
          (buildClusterLookup [(0, ["flu".toList])]) [(0, ["flu".toList])]
          "flu".toList [] 20 ∧
        (⟨0, 0, mkRat 25 2, 2⟩ : SearchResult) = format_specialist_result p.1 p.2 ∧
        (p.1.topic_cluster ∈
            ((score_clusters_by_query (buildClusterLookup [(0, ["flu".toList])])
              "flu".toList).take 3).map (fun c => c.cid) ∨
          ∃ rv, p.1.relevancy_score = some rv ∧ 1 ≤ rv) :=
  full_path_requires_cluster_or_relevancy
    [⟨0, 0, some 2, 0, "flu".toList, [], [], [], "texas".toList, []⟩]
    (buildClusterLookup [(0, ["flu".toList])]) [(0, ["flu".toList])]
    "flu".toList [] 20 ⟨0, 0, mkRat 25 2, 2⟩ (by decide)
